import Mathlib

/-!
# Verification of the night-routine scheduler (`src/main.py`)

A shallow embedding of the allocation engine of the scheduler:

* `NR.nightRoutineTime`   embeds `get_night_routine_time` (lines 26–45);
* `NR.stoveTemplate` / `NR.patrolTemplate` embed the slot-template loops of
  `generate_night_routine_hours` (lines 258–288);
* `NR.Alloc`              embeds the proportional hour allocation with the
  largest-remainder rounding loop (lines 202–242);
* `NR.Driver`             embeds the driver placement (lines 306–334);
* `NR.Pair`               embeds the patrol pairing (lines 336–373);
* `NR.Fill`               embeds the zero-duty fill and the "phase 2"
  fairness-fill loop (lines 375–470);
* `NR.divideSquad`        composes the per-squad stages exactly as
  `divide_night_routine_hours` does for one squad.

Conventions used throughout:

* Hour-stamps `"HH:MM"` (minutes always `"00"`) are embedded as the hour,
  a natural number `0 ≤ t < 24`.  String comparison of two such stamps
  agrees with numeric comparison within each of the two groups the code
  sorts (`time[0] != "0"` is `10 ≤ t`).
* Python `float` arithmetic on the values the program manipulates
  (`round(x, 2)` of small rationals, `% 1`, `math.floor`/`math.ceil`) is
  embedded in `ℚ`.  On the program's domain (integral hour counts `≤ 24`,
  squad sizes `≤ 12`, shares with two decimal digits) the decimal rounding
  the interpreter performs coincides with exact rational rounding
  (half-to-even), which is what `round2` implements.
* Randomness (`choice`, `shuffle`, `sample`, `randint`) is embedded by
  explicit oracle parameters; every theorem quantifies over the oracle
  or fixes a concrete one.
* Python exceptions are embedded by `Except PyErr`; a `while True` loop
  is given a fuel parameter, and exhausting every fuel value is the
  embedding of non-termination (`PyErr.outOfFuel`).
-/

namespace NR

/-- Python exceptions / abnormal outcomes that the embedded code can raise.
`outOfFuel` is not a Python exception: it marks that a fuel bound was hit,
and "`.error .outOfFuel` for every fuel" embeds an infinite loop. -/
inductive PyErr where
  | zeroDivision
  | indexError
  | valueError
  | nameError
  | outOfFuel
  deriving DecidableEq, Repr

instance {ε α : Type} [DecidableEq ε] [DecidableEq α] : DecidableEq (Except ε α) :=
  fun a b =>
    match a, b with
    | .ok x, .ok y =>
        if h : x = y then .isTrue (by rw [h])
        else .isFalse (fun hh => h (Except.ok.inj hh))
    | .error x, .error y =>
        if h : x = y then .isTrue (by rw [h])
        else .isFalse (fun hh => h (Except.error.inj hh))
    | .ok _, .error _ => .isFalse (fun hh => Except.noConfusion hh)
    | .error _, .ok _ => .isFalse (fun hh => Except.noConfusion hh)

/-- The `driver` field of a soldier record.  The file-reading path
(`generate_platoon`, line 122) stores the raw CSV string; the CLI path
(`read_info_from_cli`, lines 523–529) stores a Python boolean. -/
inductive DriverVal where
  | str (s : String)
  | bool (b : Bool)
  deriving DecidableEq, Repr

/-- A soldier record (`{id, rank, name, driver, time_on_duty}`).
`timeOnDuty` holds hour-stamps embedded as hours. -/
structure Soldier where
  id : Nat
  rank : String
  name : String
  driver : DriverVal
  timeOnDuty : List Nat
  deriving DecidableEq, Repr

/-- A squad dictionary `{"squad_number": _, "squad_members": _}`. -/
structure Squad where
  squadNumber : Nat
  squadMembers : List Soldier
  deriving DecidableEq, Repr

/-- Python `len` of a squad dictionary: the number of keys, which is
always 2 (`squad_number` and `squad_members`).  The tie-break in
`generate_night_routine_hours` (lines 232–237) applies `len` to
`platoon[i]`, a dictionary, not to its member list. -/
def pyLenSquadDict (_sq : Squad) : Nat := 2

/-- A stove-watch slot `{"time": _, "name": _, "id": _}`.  The sentinel
string `"empty"` in the `id`/`name` fields is embedded as `none`. -/
structure StoveSlot where
  time : Nat
  sname : Option String
  sid : Option Nat
  deriving DecidableEq, Repr

/-- A patrol slot `{"time", "first_name", "second_name", "first_id",
"second_id"}` with `"empty"` embedded as `none`. -/
structure PatrolSlot where
  time : Nat
  firstName : Option String
  secondName : Option String
  firstId : Option Nat
  secondId : Option Nat
  deriving DecidableEq, Repr

/-- A squad's schedule `{"stove_watch_schedule": _, "patrol_schedule": _}`. -/
structure SquadSchedule where
  stove : List StoveSlot
  patrol : List PatrolSlot
  deriving DecidableEq, Repr

/-- One hour later on the clock. -/
def hourAfter (t : Nat) : Nat := (t + 1) % 24

/-- `get_night_routine_time` (lines 26–45): the difference
`end − start` of two same-day `datetime`s, with one day added when the
difference is negative, truncated to whole hours.  When `e = s` the
difference is zero and no day is added, so the result is `0`. -/
def nightRoutineTime (s e : Nat) : Nat :=
  if s ≤ e then e - s else e + 24 - s

/-- The stove-watch template loop (lines 262–271): a do-while that
appends a slot at the running clock time, advances one hour, and stops
when the clock reaches the end time.  Fuel 24 always suffices. -/
def stoveLoop : Nat → Nat → Nat → List StoveSlot
  | 0, _, _ => []
  | fuel + 1, t, e =>
      { time := t % 24, sname := none, sid := none } ::
        (if (t + 1) % 24 = e % 24 then [] else stoveLoop fuel ((t + 1) % 24) e)

/-- The stove-watch slot template for the window `[s, e)`. -/
def stoveTemplate (s e : Nat) : List StoveSlot := stoveLoop 24 (s % 24) (e % 24)

/-- The patrol template loop (lines 273–284): `hours` slots at
consecutive clock times starting at `clock` (the shared advancing
patrol clock). -/
def patrolTemplate (clock hours : Nat) : List PatrolSlot :=
  (List.range hours).map fun i =>
    { time := (clock + i) % 24, firstName := none, secondName := none,
      firstId := none, secondId := none }

namespace Alloc

/-- Python `round(x)` to an integer: round half to even. -/
def roundHalfEven (q : ℚ) : ℤ :=
  if q - ⌊q⌋ < 1 / 2 then ⌊q⌋
  else if 1 / 2 < q - ⌊q⌋ then ⌊q⌋ + 1
  else if Even ⌊q⌋ then ⌊q⌋ else ⌊q⌋ + 1

/-- Python `round(x, 2)`: round to the nearest multiple of `1/100`,
half to even. -/
def round2 (q : ℚ) : ℚ := (roundHalfEven (100 * q) : ℚ) / 100

/-- Python `x % 1`: the fractional part (the remainder takes the sign
of the divisor, so this is `x - ⌊x⌋` for every `x`). -/
def frac (q : ℚ) : ℚ := q - ⌊q⌋

/-- `platoon_size` (lines 202–204): total number of soldiers. -/
def platoonSize (platoon : List Squad) : Nat :=
  platoon.foldl (fun acc sq => acc + sq.squadMembers.length) 0

/-- The raw squad shares (lines 207–210):
`round(H * round(len(members) / platoon_size, 2), 2)`. -/
def shares (H : Nat) (platoon : List Squad) : List ℚ :=
  platoon.map fun sq =>
    round2 ((H : ℚ) * round2 ((sq.squadMembers.length : ℚ) / (platoonSize platoon : ℚ)))

/-- Python list indexing with a possibly negative index (a negative
index counts from the end). -/
def pyGetSquad (platoon : List Squad) (i : ℤ) : Squad :=
  let j : ℤ := if i < 0 then (platoon.length : ℤ) + i else i
  platoon.getD j.toNat { squadNumber := 0, squadMembers := [] }

/-- One scan for the largest fractional remainder (lines 221–238).
The accumulator is the `largest_decimal` pair `(index, decimal)` with
initial value `(-1, 0)`.  On an exact tie the code compares
`len(platoon[..])` of the two squad dictionaries — which is always 2 —
and in the remaining case draws by `choice([i, largest_decimal[0]])`,
embedded by the oracle `o`. -/
def scanStep (platoon : List Squad) (o : Nat → Bool) (hours : List ℚ)
    (best : ℤ × ℚ) (i : Nat) : ℤ × ℚ :=
  let dec := frac (hours.getD i 0)
  if best.2 < dec then ((i : ℤ), dec)
  else if best.2 = dec then
    if pyLenSquadDict (pyGetSquad platoon best.1) <
        pyLenSquadDict (pyGetSquad platoon (i : ℤ)) then ((i : ℤ), dec)
    else if pyLenSquadDict (pyGetSquad platoon (i : ℤ)) <
        pyLenSquadDict (pyGetSquad platoon best.1) then ((i : ℤ), dec)
    else (if o i then (i : ℤ) else best.1, dec)
  else best

def scanFold (platoon : List Squad) (o : Nat → Bool) (hours : List ℚ) : ℤ × ℚ :=
  (List.range hours.length).foldl (scanStep platoon o hours) ((-1 : ℤ), (0 : ℚ))

/-- `squad_hours[largest_decimal[0]] = math.ceil(...)` (line 240), with
Python negative-index semantics for the stored index. -/
def ceilAt (hours : List ℚ) (i : ℤ) : List ℚ :=
  let j : ℤ := if i < 0 then (hours.length : ℤ) + i else i
  hours.set j.toNat (⌈hours.getD j.toNat 0⌉ : ℚ)

/-- One iteration of the rounding loop body (lines 221–240). -/
def allocStep (platoon : List Squad) (o : Nat → Bool) (hours : List ℚ) : List ℚ :=
  ceilAt hours (scanFold platoon o hours).1

/-- `sum([math.floor(element) for element in squad_hours])` (line 214). -/
def sumFloor (hours : List ℚ) : ℤ := (hours.map fun q => (⌊q⌋ : ℤ)).sum

/-- The rounding loop (lines 214–240), with fuel.  The loop guard is
re-checked before every iteration exactly as the `while` does;
`get_night_routine_time()` is the constant `H` throughout. -/
def allocLoop (H : Nat) (platoon : List Squad) (o : Nat → Nat → Bool) :
    Nat → List ℚ → List ℚ
  | 0, hours => hours
  | fuel + 1, hours =>
      if sumFloor hours < (H : ℤ) then
        allocLoop H platoon o fuel (allocStep platoon (o fuel) hours)
      else hours

/-- The per-squad hour allocation of `generate_night_routine_hours`
(lines 202–242): raw shares, the rounding loop, then the final floors
(line 242).  Fuel `H` always suffices (see `c1_hour_allocation`). -/
def generateHours (H : Nat) (platoon : List Squad) (o : Nat → Nat → Bool) : List ℤ :=
  (allocLoop H platoon o H (shares H platoon)).map fun q => (⌊q⌋ : ℤ)

/-- Verification invariant of the rounding loop.  `sh` is the list of
raw shares and `hours` the current loop state: every entry is the share
or its ceiling (a ceiled entry had fractional part zero or above
`23/200` when it was picked), the number of entries with fractional
part at least `177/200` never exceeds the remaining deficit
`H - Σ⌊hours⌋`, and the deficit never exceeds the number of entries
with fractional part above `23/200`. -/
def LoopInv (H : Nat) (sh hours : List ℚ) : Prop :=
  hours.length = sh.length ∧
  (∀ i, i < sh.length →
    hours.getD i 0 = sh.getD i 0 ∨
      (hours.getD i 0 = ((⌈sh.getD i 0⌉ : ℤ) : ℚ) ∧
        (frac (sh.getD i 0) = 0 ∨ 23 / 200 < frac (sh.getD i 0)))) ∧
  ((hours.countP fun q => decide ((177 : ℚ) / 200 ≤ frac q)) : ℤ) ≤
    (H : ℤ) - sumFloor hours ∧
  (H : ℤ) - sumFloor hours ≤
    ((hours.countP fun q => decide ((23 : ℚ) / 200 < frac q)) : ℤ)

end Alloc

/-- Replace the element at index `n` (out-of-range leaves the list
unchanged; every use below is in range). -/
def modifyIdx {α : Type} : List α → Nat → (α → α) → List α
  | [], _, _ => []
  | a :: l, 0, f => f a :: l
  | a :: l, n + 1, f => a :: modifyIdx l n f

/-- Resolve a Python list index that may be negative. -/
def pyResolve (len : Nat) (i : ℤ) : ℤ := if i < 0 then (len : ℤ) + i else i

namespace Driver

/-- `drivers_in_squad` (lines 307–310): the members whose `driver`
field equals the string `"yes"` (Python `==` between a boolean and a
string is `False`). -/
def driversInSquad (members : List Soldier) : List Soldier :=
  members.filter fun s => s.driver = DriverVal.str "yes"

/-- The inner placement loop for one driver (lines 329–334): `counter`
times, write the driver's id and name into the stove-watch slot at
Python index `factor`, append that slot's time to the driver's
`time_on_duty`, and step `factor` forwards (`first_watch`) or
backwards. -/
def driverRun (fw : Bool) : Nat → ℤ → Soldier → List StoveSlot →
    List StoveSlot × Soldier
  | 0, _, d, slots => (slots, d)
  | counter + 1, factor, d, slots =>
      let j := (pyResolve slots.length factor).toNat
      let t := (slots.getD j { time := 0, sname := none, sid := none }).time
      let slots' := modifyIdx slots j fun sl =>
        { sl with sid := some d.id, sname := some d.name }
      driverRun fw counter (if fw then factor + 1 else factor - 1)
        { d with timeOnDuty := d.timeOnDuty ++ [t] } slots'

/-- The driver loop (lines 323–334): `first_watch` flips before each
driver; a front driver starts at index 0 and fills `⌈hpd⌉` slots
forwards, a back driver starts at index `-1` and fills `⌊hpd⌋` slots
backwards.  Returns the updated slots and the updated drivers in
processing order. -/
def placeDrivers (hpd : ℚ) : List Soldier → Bool → List StoveSlot →
    List StoveSlot × List Soldier
  | [], _, slots => (slots, [])
  | d :: rest, fw, slots =>
      let fw' := !fw
      let counter := if fw' then (⌈hpd⌉).toNat else (⌊hpd⌋).toNat
      let factor : ℤ := if fw' then 0 else -1
      let (slots', d') := driverRun fw' counter factor d slots
      let (slots'', rest') := placeDrivers hpd rest fw' slots'
      (slots'', d' :: rest')

/-- The driver stage (lines 306–334): detect drivers; if the squad has
drivers and the routine is longer than 6 hours, shuffle them (`shuf`
is the shuffle oracle) and place them with
`hours_per_driver = (H - 6) / len(drivers_in_squad)`. -/
def driverStage (H : Nat) (shuf : List Soldier → List Soldier)
    (members : List Soldier) (stove : List StoveSlot) :
    List StoveSlot × List Soldier :=
  let ds := driversInSquad members
  if ds ≠ [] ∧ 6 < H then
    placeDrivers (((H : ℚ) - 6) / (ds.length : ℚ)) (shuf ds) false stove
  else (stove, ds)

end Driver

namespace Pair

/-- `squad_for_calculating` (lines 338–340): a copy of the member list
with each element of `drivers_in_squad` removed (`list.remove` deletes
the first value-equal occurrence). -/
def squadForCalculating (members : List Soldier) : List Soldier :=
  (Driver.driversInSquad members).foldl (fun l d => l.erase d) members

/-- The `pair_hours` loop (lines 346–355): while fewer entries than
`patrol_pairs_count`, append `⌈hpp⌉` for the last pair and otherwise
`⌊hpp⌋` (at least 1); break early once the running sum reaches the
patrol-slot count `P`.  The loop adds one entry per iteration, so fuel
`patrol_pairs_count` is exact. -/
def pairHoursLoop (pairsCount P : Nat) (hpp : ℚ) : Nat → List Nat → List Nat
  | 0, acc => acc
  | fuel + 1, acc =>
      if acc.length < pairsCount then
        let entry : Nat :=
          if acc.length + 1 = pairsCount then (⌈hpp⌉).toNat
          else if 1 < hpp then (⌊hpp⌋).toNat else 1
        let acc' := acc ++ [entry]
        if P ≤ acc'.sum then acc' else pairHoursLoop pairsCount P hpp fuel acc'
      else acc

def pairHours (pairsCount P : Nat) (hpp : ℚ) : List Nat :=
  pairHoursLoop pairsCount P hpp pairsCount []

/-- One patrol-slot assignment (lines 365–372): write the pair's ids
and names into the slot at `hourIndex` and append the slot's time to
both soldiers' duty lists.  Out-of-range accesses are Python
`IndexError`s. -/
def assignSlot (sfc : List Soldier) (patrol : List PatrolSlot)
    (hourIndex i1 i2 : Nat) :
    Except PyErr (List Soldier × List PatrolSlot) :=
  match patrol.get? hourIndex, sfc.get? i1, sfc.get? i2 with
  | some ph, some s1, some s2 =>
      let ph' := { ph with firstId := some s1.id, firstName := some s1.name,
                           secondId := some s2.id, secondName := some s2.name }
      let sfc1 := modifyIdx sfc i1 fun s =>
        { s with timeOnDuty := s.timeOnDuty ++ [ph.time] }
      let sfc2 := modifyIdx sfc1 i2 fun s =>
        { s with timeOnDuty := s.timeOnDuty ++ [ph.time] }
      .ok (sfc2, patrol.set hourIndex ph')
  | _, _, _ => .error .indexError

/-- The pair's inner loop (lines 364–372): `hours` consecutive patrol
slots starting at `hourIndex` for the pair `(i1, i2)`. -/
def pairRun (i1 i2 : Nat) : Nat → List Soldier → List PatrolSlot → Nat →
    Except PyErr (List Soldier × List PatrolSlot × Nat)
  | 0, sfc, patrol, hourIndex => .ok (sfc, patrol, hourIndex)
  | hours + 1, sfc, patrol, hourIndex => do
      let (sfc', patrol') ← assignSlot sfc patrol hourIndex i1 i2
      pairRun i1 i2 hours sfc' patrol' (hourIndex + 1)

/-- The outer pairing loop (lines 359–373): walk
`patrol_soldiers_list` two indices at a time, paired with the entries
of `pair_hours` via `pair_counter`.  A missing second index or a
missing `pair_hours` entry is an `IndexError` (never reached when the
`sample` contract holds). -/
def pairLoop : List Nat → List Nat → List Soldier → List PatrolSlot → Nat →
    Except PyErr (List Soldier × List PatrolSlot)
  | [], _, sfc, patrol, _ => .ok (sfc, patrol)
  | _ :: [], _, _, _, _ => .error .indexError
  | _ :: _ :: _, [], _, _, _ => .error .indexError
  | i1 :: i2 :: rest, h :: hrest, sfc, patrol, hourIndex => do
      let (sfc', patrol', hourIndex') ← pairRun i1 i2 h sfc patrol hourIndex
      pairLoop rest hrest sfc' patrol' hourIndex'

end Pair

namespace Fill

/-- One step of the zero-duty pass for the soldier at position `p`
(lines 377–384): if their duty list is empty, the first still-empty
stove-watch slot receives them and its time is appended to their duty
list. -/
def zeroFillStep (sfc : List Soldier) (stove : List StoveSlot) (p : Nat) :
    List Soldier × List StoveSlot :=
  match sfc.get? p with
  | none => (sfc, stove)
  | some soldier =>
      if soldier.timeOnDuty = [] then
        match stove.findIdx? (fun sl => sl.sid = none) with
        | some j =>
            let t := (stove.getD j { time := 0, sname := none, sid := none }).time
            ( modifyIdx sfc p (fun s => { s with timeOnDuty := s.timeOnDuty ++ [t] }),
              modifyIdx stove j (fun sl =>
                { sl with sid := some soldier.id, sname := some soldier.name }) )
        | none => (sfc, stove)
      else (sfc, stove)

/-- The zero-duty pass (lines 377–384) over every soldier position in
order. -/
def zeroFill (sfc : List Soldier) (stove : List StoveSlot) :
    List Soldier × List StoveSlot :=
  (List.range sfc.length).foldl (fun st p => zeroFillStep st.1 st.2 p) (sfc, stove)

/-- Insertion of one element into an ascending list. -/
def insertSorted (a : Nat) : List Nat → List Nat
  | [] => [a]
  | b :: l => if a ≤ b then a :: b :: l else b :: insertSorted a l

/-- Ascending sort (`list.sort()`; on distinct-or-equal hour values any
correct ascending sort produces the same list). -/
def sortNat (l : List Nat) : List Nat := l.foldr insertSorted []

/-- Lines 404–414: partition the duty times into "before midnight"
(string does not start with `"0"`, i.e. hour ≥ 10) and "after
midnight" (hour < 10), sort each ascending, and concatenate. -/
def beforeAfterMerged (duty : List Nat) : List Nat :=
  sortNat (duty.filter fun t => 10 ≤ t) ++ sortNat (duty.filter fun t => t < 10)

/-- The hour difference of two same-day clock times with the one-day
wrap adjustment the code applies when the difference is negative
(lines 420, 422–423 and 427–429). -/
def hourGap (a b : Nat) : Nat := (b + 24 - a % 24) % 24

/-- `total_consecutive_sleep` of one soldier (lines 404–431), plus the
leftover value of the Python variable `start_time` (as a clock hour;
hour 0 stands for midnight of the following day).  The loop at lines
417–425 measures every gap from the fixed window start `s` (the
variable `time_point` is never advanced), and line 427 measures the
final gap from one hour after the last sorted duty time.  When the
soldier has no duty times, line 427 reads whatever `start_time` was
left by a previously processed soldier; if there is none, Python
raises a `NameError`. -/
def consSoldier (s e : Nat) (duty : List Nat) (prevStart : Option Nat) :
    Except PyErr (Nat × Option Nat) :=
  let merged := beforeAfterMerged duty
  let total := merged.foldl (fun acc t => max acc (hourGap s t)) 0
  match merged.getLast? with
  | some tl => .ok (max total (hourGap ((tl + 1) % 24) e), some ((tl + 1) % 24))
  | none =>
      match prevStart with
      | some ps => .ok (max total (hourGap ps e), some ps)
      | none => .error .nameError

/-- An entry of the `cons_hours` list (lines 432–437). -/
structure ConsEntry where
  index : Nat
  cid : Nat
  cname : String
  cons : Nat
  deriving DecidableEq, Repr

/-- `sleep_hours` of one soldier (lines 399–402):
`get_night_routine_time() - len(soldier["time_on_duty"])`, a Python
integer that may be negative. -/
def sleepZ (H : Nat) (soldier : Soldier) : ℤ :=
  (H : ℤ) - soldier.timeOnDuty.length

/-- The per-iteration scan over `squad_for_calculating` (lines
395–437): track the running maximum of `sleep_hours` (initially 0),
reset `cons_hours` on a strict increase, and append an entry for every
soldier reaching the running maximum.  `idx` is the `enumerate` index
and `ps` threads the Python variable `start_time`. -/
def consHoursGo (H s e : Nat) :
    List Soldier → Nat → ℤ → List ConsEntry → Option Nat →
    Except PyErr (List ConsEntry × Option Nat)
  | [], _, _, cons, ps => .ok (cons, ps)
  | soldier :: rest, idx, sleepHours, cons, ps =>
      if sleepHours ≤ sleepZ H soldier then
        match consSoldier s e soldier.timeOnDuty ps with
        | .error err => .error err
        | .ok (val, ps') =>
            consHoursGo H s e rest (idx + 1) (sleepZ H soldier)
              ((if sleepHours < sleepZ H soldier then [] else cons) ++
                [{ index := idx, cid := soldier.id, cname := soldier.name,
                   cons := val }]) ps'
      else consHoursGo H s e rest (idx + 1) sleepHours cons ps

/-- Lines 395–437 with the initial accumulator of the `while` body:
`sleep_hours = 0`, `cons_hours = []`. -/
def consHoursFold (H s e : Nat) (sfc : List Soldier) (prevStart : Option Nat) :
    Except PyErr (List ConsEntry × Option Nat) :=
  consHoursGo H s e sfc 0 0 [] prevStart

/-- The soldier selection (lines 447–462).  With exactly one candidate
it is taken (line 449); otherwise the `largest_cons`/`with_largest_cons`
block at lines 452–457 computes a list that is never read, the repeated
`len(cons_hours) == 1` test at line 459 can no longer be true, and the
pick falls to `randint(0, len(cons_hours) - 1)` over the whole list —
embedded by `k % len`.  An empty list makes `randint(0, -1)` raise
`ValueError`. -/
def selectIdx (cons : List ConsEntry) (k : Nat) : Except PyErr Nat :=
  if cons.length = 1 then
    .ok ((cons.getD 0 { index := 0, cid := 0, cname := "", cons := 0 }).index)
  else if cons.length = 0 then .error .valueError
  else .ok ((cons.getD (k % cons.length) { index := 0, cid := 0, cname := "", cons := 0 }).index)

/-- The assignment scan (lines 465–470): the first stove-watch slot
whose time is not yet in the chosen soldier's duty list and whose id is
still empty receives the soldier; if no such slot exists nothing
changes. -/
def assignFill (sfc : List Soldier) (stove : List StoveSlot) (p : Nat) :
    List Soldier × List StoveSlot :=
  match sfc.get? p with
  | none => (sfc, stove)
  | some soldier =>
      match stove.findIdx? (fun sl =>
          decide (sl.time ∉ soldier.timeOnDuty) && decide (sl.sid = none)) with
      | some j =>
          let t := (stove.getD j { time := 0, sname := none, sid := none }).time
          ( modifyIdx sfc p (fun s => { s with timeOnDuty := s.timeOnDuty ++ [t] }),
            modifyIdx stove j (fun sl =>
              { sl with sid := some soldier.id, sname := some soldier.name }) )
      | none => (sfc, stove)

/-- One iteration of the `while True` loop (lines 394–470): compute
`cons_hours`, test `are_times_full` and stop if every slot is taken,
otherwise select a soldier (randomness oracle value `k`) and run the
assignment scan. -/
def fillIter (H s e : Nat) (sfc : List Soldier) (stove : List StoveSlot)
    (prevStart : Option Nat) (k : Nat) :
    Except PyErr ((List Soldier × List StoveSlot × Option Nat) × Bool) := do
  let (cons, ps') ← consHoursFold H s e sfc prevStart
  if stove.all (fun sl => sl.sid ≠ none) then
    .ok ((sfc, stove, ps'), true)
  else do
    let p ← selectIdx cons k
    let (sfc', stove') := assignFill sfc stove p
    .ok ((sfc', stove', ps'), false)

/-- The fuelled `while True` loop of phase 2.  Running out of every
fuel value is the embedding of an infinite loop. -/
def fillLoop (H s e : Nat) (rint : Nat → Nat) :
    Nat → List Soldier → List StoveSlot → Option Nat →
    Except PyErr (List Soldier × List StoveSlot)
  | 0, _, _, _ => .error .outOfFuel
  | fuel + 1, sfc, stove, ps => do
      let (st, done) ← fillIter H s e sfc stove ps (rint fuel)
      if done then .ok (st.1, st.2.1)
      else fillLoop H s e rint fuel st.1 st.2.1 st.2.2

end Fill

/-- The random inputs one squad's processing consumes, and the fuel
bound for the phase-2 loop. -/
structure Oracles where
  shuf : List Soldier → List Soldier
  sel : List Nat
  rint : Nat → Nat
  fuel : Nat

/-- `divide_night_routine_hours` for one squad (the body of the loop
at lines 303–470): driver placement, patrol pairing, zero-duty fill
and the phase-2 fill, with `H = get_night_routine_time()` derived from
the window `[s, e)`.  Returns the placed drivers, the final
`squad_for_calculating` soldiers and the squad's schedule. -/
def divideSquad (s e : Nat) (orc : Oracles) (members : List Soldier)
    (sched : SquadSchedule) :
    Except PyErr (List Soldier × List Soldier × SquadSchedule) := do
  let H := nightRoutineTime s e
  let (stove1, drivers) := Driver.driverStage H orc.shuf members sched.stove
  let sfc0 := Pair.squadForCalculating members
  let pairsCount := sfc0.length / 2
  if pairsCount = 0 then
    -- line 345: `hours_per_pair = len(...) / patrol_pairs_count` divides by zero
    .error .zeroDivision
  else do
    let hpp : ℚ := (sched.patrol.length : ℚ) / (pairsCount : ℚ)
    let ph := Pair.pairHours pairsCount sched.patrol.length hpp
    let (sfc1, patrol1) ← Pair.pairLoop orc.sel ph sfc0 sched.patrol 0
    let (sfc2, stove2) := Fill.zeroFill sfc1 stove1
    let (sfc3, stove3) ← Fill.fillLoop H s e orc.rint orc.fuel sfc2 stove2 none
    .ok (drivers, sfc3, { stove := stove3, patrol := patrol1 })

/-- `divide_night_routine_hours` over the whole platoon (lines
303–471): squads are processed in `enumerate` order, squad `i` against
`time_schedule[i]`; the first exception aborts the run. -/
def dividePlatoonFrom (s e : Nat) (orc : Nat → Oracles) :
    Nat → List Squad → List SquadSchedule →
    Except PyErr (List (List Soldier × List Soldier × SquadSchedule))
  | _, [], _ => .ok []
  | _, _ :: _, [] => .error .indexError
  | i, sq :: rest, sched :: srest => do
      let r ← divideSquad s e (orc i) sq.squadMembers sched
      let rs ← dividePlatoonFrom s e orc (i + 1) rest srest
      .ok (r :: rs)

def dividePlatoon (s e : Nat) (orc : Nat → Oracles) (platoon : List Squad)
    (scheds : List SquadSchedule) :
    Except PyErr (List (List Soldier × List Soldier × SquadSchedule)) :=
  dividePlatoonFrom s e orc 0 platoon scheds

/-! ## Concrete fixtures used by counterexamples and witnesses -/

/-- A soldier whose CSV `driver` field is the string `"yes"`. -/
def yesDriver (i : Nat) : Soldier :=
  { id := i, rank := "PVT", name := "D", driver := .str "yes", timeOnDuty := [] }

/-- A soldier whose CSV `driver` field is the string `"no"`. -/
def noDriver (i : Nat) : Soldier :=
  { id := i, rank := "PVT", name := "S", driver := .str "no", timeOnDuty := [] }

/-- The schedule template of a single squad for the window
`22:00`–`06:00` (`H = 8`): 8 stove-watch slots and all 8 patrol hours
allocated to this squad. -/
def windowSched : SquadSchedule :=
  { stove := stoveTemplate 22 6, patrol := patrolTemplate 22 8 }

/-- A valid squad of five (three drivers, two ordinary members) whose
processing deadlocks phase 2: the two pairable soldiers absorb all 8
patrol hours, so every empty stove-watch slot's time is already in both
duty lists. -/
def smallSquad : List Soldier :=
  [yesDriver 0, yesDriver 1, yesDriver 2, noDriver 3, noDriver 4]

/-- A squad of five where every member is a driver: no pairable
members, `patrol_pairs_count = 0`. -/
def allDriverSquad : List Soldier :=
  [yesDriver 0, yesDriver 1, yesDriver 2, yesDriver 3, yesDriver 4]

/-- The `squad_for_calculating` state reaching phase 2 for
`smallSquad`: both soldiers hold all eight slot times. -/
def deadlockSfc : List Soldier :=
  [ { noDriver 3 with timeOnDuty := [22, 23, 0, 1, 2, 3, 4, 5] },
    { noDriver 4 with timeOnDuty := [22, 23, 0, 1, 2, 3, 4, 5] } ]

/-- The stove-watch slots reaching phase 2 for `smallSquad`: the
drivers' placement touches only the first slot (`⌈2/3⌉ = 1` forwards,
`⌊2/3⌋ = 0` backwards, the third driver overwriting the first's slot),
leaving seven empty slots. -/
def deadlockStove : List StoveSlot :=
  (Driver.driverStage 8 id smallSquad (stoveTemplate 22 6)).1

/-- The `cons_hours` list computed in every phase-2 iteration on the
deadlocked state: both soldiers have `sleep_hours = 0` and (by the
fixed-`time_point` computation) `total_consecutive_sleep = 7`. -/
def deadlockCons : List Fill.ConsEntry :=
  [{ index := 0, cid := 3, cname := "S", cons := 7 },
   { index := 1, cid := 4, cname := "S", cons := 7 }]

/-- A squad of `n` identical-size placeholder members (ids are not
used by the hour allocation). -/
def sizedSquad (num n : Nat) : Squad :=
  { squadNumber := num, squadMembers := (List.range n).map noDriver }

/-- Three squads of sizes 5, 9 and 6 with `H = 10`: the shares are
`2.5`, `4.5` and `3.0`, so squads 0 and 1 tie on the fractional
remainder `0.5` while having different member counts. -/
def tiePlatoon : List Squad := [sizedSquad 1 5, sizedSquad 2 9, sizedSquad 3 6]

/-- Two soldiers with equal sleep hours but different
`total_consecutive_sleep` (6 versus 4) in the window `22:00`–`06:00`. -/
def consA : Soldier := { noDriver 0 with timeOnDuty := [23] }

def consB : Soldier := { noDriver 1 with timeOnDuty := [2] }

/-- A five-soldier squad (no drivers) and the window `23:00`–`06:00`
(`H = 7`): with `sample` indices `[0, 1, 2, 3]` and an all-zero `randint`
oracle the whole pipeline completes within fuel 8. -/
def fillableSquad : List Soldier :=
  [noDriver 0, noDriver 1, noDriver 2, noDriver 3, noDriver 4]

def fillableSched : SquadSchedule :=
  { stove := stoveTemplate 23 6, patrol := patrolTemplate 23 7 }

def fillableOrc : Oracles :=
  { shuf := id, sel := [0, 1, 2, 3], rint := fun _ => 0, fuel := 8 }

def fillableOrcs : Nat → Oracles := fun _ => fillableOrc

def fillableOut : List (List Soldier × List Soldier × SquadSchedule) :=
  ((dividePlatoon 23 6 fillableOrcs
      [{ squadNumber := 1, squadMembers := fillableSquad }] [fillableSched]).toOption).getD []

/-! # Theorems -/

/-- `Except.bind` on a success value. -/
theorem exbind_ok {ε α β : Type} (a : α) (f : α → Except ε β) :
    (Except.ok a >>= f : Except ε β) = f a := rfl

/-- Erasing a list of elements never removes `a` when `a` differs from
each erased element. -/
theorem mem_foldl_erase {α : Type} [DecidableEq α] :
    ∀ (ds l : List α) (a : α), a ∈ l → (∀ d ∈ ds, a ≠ d) →
      a ∈ ds.foldl (fun acc d => acc.erase d) l
  | [], _, _, h, _ => h
  | d :: ds, l, a, h, hne => by
      simp only [List.foldl_cons]
      exact mem_foldl_erase ds (l.erase d) a
        ((List.mem_erase_of_ne (hne d (by simp))).mpr h)
        (fun d' hd' => hne d' (List.mem_cons_of_mem d hd'))


theorem modifyIdx_length {α : Type} : ∀ (l : List α) (n : Nat) (f : α → α),
    (modifyIdx l n f).length = l.length
  | [], _, _ => rfl
  | _ :: l, 0, f => rfl
  | a :: l, n + 1, f => by simp [modifyIdx, modifyIdx_length l n f]

theorem modifyIdx_getElem_ne {α : Type} : ∀ (l : List α) (n : Nat) (f : α → α) (i : Nat),
    n ≠ i → (modifyIdx l n f)[i]? = l[i]?
  | [], _, _, _, _ => by simp [modifyIdx]
  | a :: l, 0, f, 0, h => absurd rfl h
  | a :: l, 0, f, i + 1, _ => by simp [modifyIdx]
  | a :: l, n + 1, f, 0, _ => by simp [modifyIdx]
  | a :: l, n + 1, f, i + 1, h => by
      simp only [modifyIdx, List.getElem?_cons_succ]
      exact modifyIdx_getElem_ne l n f i (fun hh => h (by rw [hh]))

theorem driverRun_length (fw : Bool) : ∀ (counter : Nat) (factor : ℤ) (d : Soldier)
    (slots : List StoveSlot),
    ((Driver.driverRun fw counter factor d slots).1).length = slots.length
  | 0, _, _, _ => rfl
  | counter + 1, factor, d, slots => by
      simp only [Driver.driverRun]
      rw [driverRun_length fw counter _ _ _]
      exact modifyIdx_length _ _ _

theorem driverRun_getElem_ne (fw : Bool) : ∀ (counter : Nat) (factor : ℤ) (d : Soldier)
    (slots : List StoveSlot) (i : Nat),
    (∀ j : Nat, j < counter →
      (pyResolve slots.length (factor + (if fw then (j : ℤ) else -(j : ℤ)))).toNat ≠ i) →
    ((Driver.driverRun fw counter factor d slots).1)[i]? = slots[i]?
  | 0, _, _, _, _, _ => rfl
  | counter + 1, factor, d, slots, i, h => by
      simp only [Driver.driverRun]
      have hlen : (modifyIdx slots (pyResolve slots.length factor).toNat
          (fun sl => { sl with sid := some d.id, sname := some d.name })).length
          = slots.length := modifyIdx_length _ _ _
      rw [driverRun_getElem_ne fw counter _ _ _ i ?_]
      · exact modifyIdx_getElem_ne _ _ _ _ (by
          have := h 0 (Nat.succ_pos _)
          simpa using this)
      · intro j hj
        rw [hlen]
        have := h (j + 1) (by omega)
        rcases fw with _ | _
        · simpa [show factor - 1 + -(j : ℤ) = factor + -((j + 1 : Nat) : ℤ) by push_cast; ring] using this
        · simpa [show factor + 1 + (j : ℤ) = factor + ((j + 1 : Nat) : ℤ) by push_cast; ring] using this


theorem placeDrivers_cons (hpd : ℚ) (d : Soldier) (rest : List Soldier) (fw : Bool)
    (slots : List StoveSlot) :
    Driver.placeDrivers hpd (d :: rest) fw slots =
      ((Driver.placeDrivers hpd rest (!fw)
          (Driver.driverRun (!fw) (if !fw then (⌈hpd⌉).toNat else (⌊hpd⌋).toNat)
            (if !fw then 0 else -1) d slots).1).1,
       (Driver.driverRun (!fw) (if !fw then (⌈hpd⌉).toNat else (⌊hpd⌋).toNat)
            (if !fw then 0 else -1) d slots).2 ::
       (Driver.placeDrivers hpd rest (!fw)
          (Driver.driverRun (!fw) (if !fw then (⌈hpd⌉).toNat else (⌊hpd⌋).toNat)
            (if !fw then 0 else -1) d slots).1).2) := rfl

theorem placeDrivers_length (hpd : ℚ) : ∀ (drivers : List Soldier) (fw : Bool)
    (slots : List StoveSlot),
    ((Driver.placeDrivers hpd drivers fw slots).1).length = slots.length
  | [], _, _ => rfl
  | d :: rest, fw, slots => by
      rw [placeDrivers_cons]
      show ((Driver.placeDrivers hpd rest (!fw) _).1).length = _
      rw [placeDrivers_length hpd rest (!fw) _, driverRun_length]

theorem pyResolve_nonneg (len : Nat) (z : ℤ) (h : 0 ≤ z) : pyResolve len z = z := by
  simp [pyResolve, not_lt.mpr h]

theorem pyResolve_neg (len : Nat) (z : ℤ) (h : z < 0) : pyResolve len z = len + z := by
  simp [pyResolve, h]

theorem placeDrivers_getElem_ne (hpd : ℚ) : ∀ (drivers : List Soldier) (fw : Bool)
    (slots : List StoveSlot) (i : Nat),
    (⌈hpd⌉).toNat ≤ i →
    (i + (⌊hpd⌋).toNat < slots.length ∨
      drivers.length ≤ (if fw then 0 else 1)) →
    ((Driver.placeDrivers hpd drivers fw slots).1)[i]? = slots[i]?
  | [], _, _, _, _, _ => rfl
  | d :: rest, fw, slots, i, hc, hb => by
      rw [placeDrivers_cons]
      cases fw with
      | false =>
          have hrun : ((Driver.driverRun true (⌈hpd⌉).toNat 0 d slots).1)[i]? = slots[i]? := by
            apply driverRun_getElem_ne
            intro j hj
            show (pyResolve slots.length (0 + (j : ℤ))).toNat ≠ i
            rw [pyResolve_nonneg _ _ (by omega)]
            omega
          have hb2 : i + (⌊hpd⌋).toNat <
              ((Driver.driverRun true (⌈hpd⌉).toNat 0 d slots).1).length ∨
              rest.length ≤ 0 := by
            rcases hb with hb | hb
            · left
              rw [driverRun_length]
              exact hb
            · right
              simp only [List.length_cons, if_neg (by simp : ¬ false = true)] at hb
              omega
          exact (placeDrivers_getElem_ne hpd rest true _ i hc hb2).trans hrun
      | true =>
          rcases hb with hb | hb
          · have hrun : ((Driver.driverRun false (⌊hpd⌋).toNat (-1) d slots).1)[i]? = slots[i]? := by
              apply driverRun_getElem_ne
              intro j hj
              show (pyResolve slots.length (-1 + -(j : ℤ))).toNat ≠ i
              rw [pyResolve_neg _ _ (by omega)]
              omega
            have hb2 : i + (⌊hpd⌋).toNat <
                ((Driver.driverRun false (⌊hpd⌋).toNat (-1) d slots).1).length ∨
                rest.length ≤ 1 := by
              left
              rw [driverRun_length]
              exact hb
            exact (placeDrivers_getElem_ne hpd rest false _ i hc hb2).trans hrun
          · simp at hb


theorem stoveLoop_sid : ∀ (fuel t e : Nat), ∀ sl ∈ stoveLoop fuel t e, sl.sid = none := by
  intro fuel
  induction fuel with
  | zero => intro t e sl h; simp [stoveLoop] at h
  | succ n ih =>
      intro t e sl h
      simp only [stoveLoop] at h
      rcases List.mem_cons.mp h with rfl | h2
      · rfl
      · split at h2
        · simp at h2
        · exact ih _ e sl h2

theorem stoveTemplate_length_eq :
    ∀ s, s < 24 → ∀ e, e < 24 → s ≠ e →
      (stoveTemplate s e).length = nightRoutineTime s e := by decide

theorem ceil_add_floor_le (n d : ℕ) (hd : 2 ≤ d) :
    ⌈(n : ℚ) / (d : ℚ)⌉ + ⌊(n : ℚ) / (d : ℚ)⌋ ≤ (n : ℤ) := by
  set x : ℚ := (n : ℚ) / (d : ℚ) with hx
  have hd0 : (0 : ℚ) < (d : ℚ) := by
    have : (0 : ℕ) < d := by omega
    exact_mod_cast this
  have h2x : 2 * x ≤ (n : ℚ) := by
    rw [hx, mul_div_assoc']
    rw [div_le_iff₀ hd0]
    have : (2 : ℚ) * n ≤ n * d := by
      have hnat : 2 * n ≤ n * d := by
        calc 2 * n = n * 2 := by ring
        _ ≤ n * d := Nat.mul_le_mul_left n hd
      exact_mod_cast hnat
    linarith
  by_cases heq : ⌈x⌉ = ⌊x⌋
  · rw [heq]
    have hfl : (⌊x⌋ : ℚ) ≤ x := Int.floor_le x
    have : ((⌊x⌋ + ⌊x⌋ : ℤ) : ℚ) ≤ (n : ℚ) := by push_cast; linarith
    exact_mod_cast this
  · have hceil : ⌈x⌉ ≤ ⌊x⌋ + 1 := Int.ceil_le_floor_add_one x
    have hlt : (⌊x⌋ : ℚ) < x := by
      rcases lt_or_eq_of_le (Int.floor_le x) with h | h
      · exact h
      · exfalso
        apply heq
        rw [← h]
        simp
    have hq : ((2 * ⌊x⌋ : ℤ) : ℚ) < (n : ℚ) := by push_cast; linarith
    have hz : 2 * ⌊x⌋ < (n : ℤ) := by exact_mod_cast hq
    omega



/-- C2.  For every squad with at least one driver and window duration
`H > 6`, driver placement leaves a contiguous block of at least 6
stove-watch slots untouched (id still `"empty"`).  Front drivers write
only indices `[0, ⌈hpd⌉)` and back drivers only `[H - ⌊hpd⌋, H)` —
drivers three, four, … rewrite the same two regions because `factor`
restarts at `0` or `-1` for each driver — and
`⌈hpd⌉ + ⌊hpd⌋ ≤ H - 6` for two or more drivers (for a single driver
only the front block `[0, H-6)` is written), so the middle block of
length at least 6 is never assigned to any driver. -/
theorem c2_driver_rest_block (s e : Nat) (members : List Soldier)
    (shuf : List Soldier → List Soldier)
    (hs : s < 24) (he : e < 24)
    (hH : 6 < nightRoutineTime s e)
    (hd : Driver.driversInSquad members ≠ [])
    (hshuf : (shuf (Driver.driversInSquad members)).length =
      (Driver.driversInSquad members).length) :
    ∃ a L, 6 ≤ L ∧ a + L ≤ (stoveTemplate s e).length ∧
      ∀ i, a ≤ i → i < a + L →
        ∃ sl, ((Driver.driverStage (nightRoutineTime s e) shuf members
            (stoveTemplate s e)).1)[i]? = some sl ∧ sl.sid = none := by
  have hne : s ≠ e := by
    intro h
    rw [h] at hH
    simp [nightRoutineTime] at hH
  set H := nightRoutineTime s e with hHdef
  set ds := Driver.driversInSquad members with hds
  have hdl0 : 0 < ds.length := List.length_pos.mpr hd
  set hpd : ℚ := ((H : ℚ) - 6) / (ds.length : ℚ) with hhpd
  have hstage : (Driver.driverStage H shuf members (stoveTemplate s e)).1 =
      (Driver.placeDrivers hpd (shuf ds) false (stoveTemplate s e)).1 := by
    simp only [Driver.driverStage, ← hds, ← hhpd]
    rw [if_pos ⟨hd, hH⟩]
  have hlen : (stoveTemplate s e).length = H := stoveTemplate_length_eq s hs e he hne
  have hcast : ((H : ℚ) - 6) = ((H - 6 : ℕ) : ℚ) := by
    rw [Nat.cast_sub (by omega : 6 ≤ H)]
    norm_num
  have hx0 : (0 : ℚ) ≤ hpd := by
    rw [hhpd, hcast]
    positivity
  have hc0 : 0 ≤ ⌈hpd⌉ := Int.ceil_nonneg hx0
  have hb0 : 0 ≤ ⌊hpd⌋ := Int.floor_nonneg.mpr hx0
  have hmk : ∀ i, i < H →
      ((Driver.placeDrivers hpd (shuf ds) false (stoveTemplate s e)).1)[i]? =
        (stoveTemplate s e)[i]? →
      ∃ sl, ((Driver.driverStage H shuf members (stoveTemplate s e)).1)[i]? =
        some sl ∧ sl.sid = none := by
    intro i hi hres
    have hilt : i < (stoveTemplate s e).length := by omega
    refine ⟨(stoveTemplate s e)[i], ?_, ?_⟩
    · rw [hstage, hres]
      exact List.getElem?_eq_getElem hilt
    · exact stoveLoop_sid _ _ _ _ (List.getElem_mem hilt)
  by_cases hdl1 : ds.length = 1
  · have hone : hpd = ((H - 6 : ℕ) : ℚ) := by
      rw [hhpd, hcast, hdl1]
      simp
    have hceil : (⌈hpd⌉).toNat = H - 6 := by
      rw [hone, Int.ceil_natCast]
      simp
    refine ⟨H - 6, 6, le_refl 6, by omega, ?_⟩
    intro i hi1 hi2
    refine hmk i (by omega) ?_
    apply placeDrivers_getElem_ne
    · omega
    · right
      have : (shuf ds).length = 1 := by rw [hshuf]; exact hdl1
      simp [this]
  · have hdl2 : 2 ≤ ds.length := by omega
    have harith : ⌈hpd⌉ + ⌊hpd⌋ ≤ ((H - 6 : ℕ) : ℤ) := by
      rw [hhpd, hcast]
      exact ceil_add_floor_le (H - 6) ds.length hdl2
    have hab : (⌈hpd⌉).toNat + (⌊hpd⌋).toNat ≤ H - 6 := by omega
    refine ⟨(⌈hpd⌉).toNat, H - (⌈hpd⌉).toNat - (⌊hpd⌋).toNat, by omega, by omega, ?_⟩
    intro i hi1 hi2
    refine hmk i (by omega) ?_
    apply placeDrivers_getElem_ne
    · exact hi1
    · left
      rw [hlen]
      omega

/-- Witness for `c2_driver_rest_block`: the spec's own scenario — the
window `22:00`–`06:00` (`H = 8`) and a squad of two drivers. -/
theorem c2_witness :
    ∃ a L, 6 ≤ L ∧ a + L ≤ (stoveTemplate 22 6).length ∧
      ∀ i, a ≤ i → i < a + L →
        ∃ sl, ((Driver.driverStage (nightRoutineTime 22 6) id
            [yesDriver 0, yesDriver 1] (stoveTemplate 22 6)).1)[i]? = some sl ∧
          sl.sid = none :=
  c2_driver_rest_block 22 6 [yesDriver 0, yesDriver 1] id (by decide) (by decide)
    (by decide) (by decide) rfl

/-- C7.  The claim states that `get_night_routine_time` yields `H = 24`
for the window `06:00`–`06:00` (next day).  The code computes the
`datetime` difference `06:00 - 06:00 = 0` and, since zero is not
negative, applies no day-wrap adjustment: the computed duration is `0`,
not `24` — while the slot-template loop of
`generate_night_routine_hours` builds 24 stove-watch slots for the very
same window, confirming that 24 was the intent. -/
theorem c7_equal_window_duration_is_zero :
    nightRoutineTime 6 6 = 0 ∧ (stoveTemplate 6 6).length = 24 := by
  constructor
  · rfl
  · decide

/-- C10.  `divide_night_routine_hours` recognizes a soldier as a driver
only when the `driver` field is exactly the string `"yes"` (line 309).
Any soldier with a different value — including the boolean `True`
stored by the CLI ingestion path — is never collected into
`drivers_in_squad`, hence never placed by the driver stage, and
survives the removal that forms `squad_for_calculating`, i.e. is
treated as an ordinary pairable member. -/
theorem c10_only_yes_string_is_driver (members : List Soldier) (s : Soldier)
    (hs : s.driver ≠ DriverVal.str "yes") :
    s ∉ Driver.driversInSquad members ∧
      (s ∈ members → s ∈ Pair.squadForCalculating members) := by
  constructor
  · intro hmem
    rcases List.mem_filter.mp hmem with ⟨-, hyes⟩
    exact hs (by simpa using hyes)
  · intro hmem
    refine mem_foldl_erase _ _ _ hmem ?_
    intro d hd heq
    rcases List.mem_filter.mp hd with ⟨-, hyes⟩
    exact hs (heq ▸ by simpa using hyes)

/-- Witness for `c10_only_yes_string_is_driver`: a soldier whose
`driver` field is the boolean `True` of the CLI path. -/
theorem c10_witness :
    let s : Soldier :=
      { id := 7, rank := "SGT", name := "T", driver := .bool true, timeOnDuty := [] }
    s ∉ Driver.driversInSquad [s] ∧ (s ∈ [s] → s ∈ Pair.squadForCalculating [s]) :=
  c10_only_yes_string_is_driver _ _ (by decide)

/-- C3.  A squad with zero pairable (non-driver) members and a
non-empty patrol-slot sequence makes `divide_night_routine_hours`
evaluate `len(squad_schedule["patrol_schedule"]) / patrol_pairs_count`
with `patrol_pairs_count = 0` (line 345): Python raises a low-level
`ZeroDivisionError`.  No named `InsufficientPairableMembers` error
exists anywhere in the program. -/
theorem c3_zero_division_on_unpairable :
    divideSquad 22 6 { shuf := id, sel := [], rint := fun _ => 0, fuel := 9 }
        allDriverSquad windowSched = .error .zeroDivision ∧
      windowSched.patrol ≠ [] := by
  constructor
  · rfl
  · decide

unseal Rat.mul Rat.add Rat.sub Rat.inv in
/-- C6 counterexample.  For `H = 10` and squads of sizes 5, 9, 6 the
shares are `2.5`, `4.5`, `3.0`: squads 0 and 1 tie on fractional
remainder `0.5` and have different member counts, yet the outcome
depends on the random draw: one draw rounds up the 5-member squad
(allocation `[3, 4, 3]`), the other the 9-member squad (`[2, 5, 3]`).
The claim requires the 9-member squad to be preferred
deterministically. -/
theorem c6_counterexample_tie_pick :
    Alloc.frac ((Alloc.shares 10 tiePlatoon).getD 0 0) =
        Alloc.frac ((Alloc.shares 10 tiePlatoon).getD 1 0) ∧
      (sizedSquad 1 5).squadMembers.length < (sizedSquad 2 9).squadMembers.length ∧
      Alloc.generateHours 10 tiePlatoon (fun _ _ => false) = [3, 4, 3] := by
  refine ⟨by decide, by decide, by decide⟩

unseal Rat.mul Rat.add Rat.sub Rat.inv in
/-- C6 amended: on an exact fractional-remainder tie the implementation
compares `len(platoon[i])` of the squad *dictionaries* — always 2 — so
member counts never influence the pick, and the tie always falls to the
random `choice`; either tied squad can receive the round-up. -/
theorem c6_amended_random_tie_ignores_members :
    (∀ (hours : List ℚ) (p p' : List Squad) (o : Nat → Bool),
        Alloc.scanFold p o hours = Alloc.scanFold p' o hours) ∧
      Alloc.generateHours 10 tiePlatoon (fun _ _ => false) = [3, 4, 3] ∧
      Alloc.generateHours 10 tiePlatoon (fun _ _ => true) = [2, 5, 3] := by
  refine ⟨fun hours p p' o => rfl, by decide, by decide⟩

/-- The `cons_hours` scan invariant: on success every produced entry
points at a soldier whose `sleep_hours` is maximal over the whole
list. -/
theorem consHoursGo_max_sleep (H s e : Nat) :
    ∀ (rest pre : List Soldier) (cur : ℤ) (cons : List Fill.ConsEntry)
      (ps : Option Nat) (out : List Fill.ConsEntry × Option Nat),
      Fill.consHoursGo H s e rest pre.length cur cons ps = .ok out →
      (∀ entry ∈ cons, ∃ sold, (pre ++ rest)[entry.index]? = some sold ∧
        Fill.sleepZ H sold = cur) →
      (∀ sold ∈ pre, Fill.sleepZ H sold ≤ cur) →
      ∀ entry ∈ out.1, ∃ sold, (pre ++ rest)[entry.index]? = some sold ∧
        ∀ other ∈ pre ++ rest, Fill.sleepZ H other ≤ Fill.sleepZ H sold := by
  intro rest
  induction rest with
  | nil =>
      intro pre cur cons ps out hrun inv1 inv2 entry hentry
      simp only [Fill.consHoursGo, Except.ok.injEq] at hrun
      obtain ⟨sold, hget, hsleep⟩ := inv1 entry (by rw [← hrun] at hentry; exact hentry)
      exact ⟨sold, hget, fun other hother => by
        simp only [List.append_nil] at hother
        exact hsleep ▸ inv2 other hother⟩
  | cons soldier rest ih =>
      intro pre cur cons ps out hrun inv1 inv2
      simp only [Fill.consHoursGo] at hrun
      have hassoc : pre ++ soldier :: rest = (pre ++ [soldier]) ++ rest := by simp
      by_cases hle : cur ≤ Fill.sleepZ H soldier
      · rw [if_pos hle] at hrun
        cases hcs : Fill.consSoldier s e soldier.timeOnDuty ps with
        | error err => rw [hcs] at hrun; cases hrun
        | ok valps =>
            obtain ⟨val, ps2⟩ := valps
            simp only [hcs] at hrun
            have hlen : pre.length + 1 = (pre ++ [soldier]).length := by simp
            rw [hlen] at hrun
            have := ih (pre ++ [soldier]) (Fill.sleepZ H soldier) _ _ _ hrun
              (by
                intro entry hentry
                rcases List.mem_append.mp hentry with hold | hnew
                · by_cases hlt : cur < Fill.sleepZ H soldier
                  · rw [if_pos hlt] at hold; cases hold
                  · rw [if_neg hlt] at hold
                    have hcureq : cur = Fill.sleepZ H soldier :=
                      le_antisymm hle (not_lt.mp hlt)
                    obtain ⟨sold, hget, hsleep⟩ := inv1 entry hold
                    exact ⟨sold, by rw [← hassoc]; exact hget, by rw [hsleep, hcureq]⟩
                · simp only [List.mem_singleton] at hnew
                  subst hnew
                  have hgetp : (pre ++ soldier :: rest)[pre.length]? = some soldier := by
                    rw [List.getElem?_append_right (le_refl pre.length)]
                    simp
                  exact ⟨soldier, by rw [← hassoc]; exact hgetp, rfl⟩
              )
              (by
                intro sold hsold
                rcases List.mem_append.mp hsold with hpre | hsing
                · exact le_trans (inv2 sold hpre) hle
                · simp only [List.mem_singleton] at hsing; subst hsing; exact le_refl _
              )
            intro entry hentry
            obtain ⟨sold, hget, hall⟩ := this entry hentry
            exact ⟨sold, by rw [hassoc]; exact hget, fun other hother => by
              rw [hassoc] at hother; exact hall other hother⟩
      · rw [if_neg hle] at hrun
        have hlen : pre.length + 1 = (pre ++ [soldier]).length := by simp
        rw [hlen] at hrun
        have := ih (pre ++ [soldier]) cur cons ps out hrun
          (by
            intro entry hentry
            obtain ⟨sold, hget, hsleep⟩ := inv1 entry hentry
            exact ⟨sold, by rw [← hassoc]; exact hget, hsleep⟩)
          (by
            intro sold hsold
            rcases List.mem_append.mp hsold with hpre | hsing
            · exact inv2 sold hpre
            · simp only [List.mem_singleton] at hsing; subst hsing
              exact le_of_lt (not_le.mp hle))
        intro entry hentry
        obtain ⟨sold, hget, hall⟩ := this entry hentry
        exact ⟨sold, by rw [hassoc]; exact hget, fun other hother => by
          rw [hassoc] at hother; exact hall other hother⟩

/-- C5 amended: in Phase 2 the assigned soldier is chosen by the
random draw over the *whole* maximum-sleep-hours subset: every entry of
`cons_hours` points at a soldier of maximal `sleep_hours`, the selected
position is one of those entries, and the contiguous-rest values are
never consulted (the filter at lines 452–457 is dead code). -/
theorem c5_amended_random_among_max_sleep (H s e : Nat) (sfc : List Soldier)
    (ps ps' : Option Nat) (cons : List Fill.ConsEntry) (k p : Nat)
    (hrun : Fill.consHoursFold H s e sfc ps = .ok (cons, ps'))
    (hsel : Fill.selectIdx cons k = .ok p) :
    ∃ entry ∈ cons, p = entry.index ∧
      ∃ sold, sfc[entry.index]? = some sold ∧
        ∀ other ∈ sfc, Fill.sleepZ H other ≤ Fill.sleepZ H sold := by
  have hmax := consHoursGo_max_sleep H s e sfc [] 0 [] ps (cons, ps') hrun
    (by simp) (by simp)
  simp only [List.nil_append] at hmax
  have hentry : ∃ entry ∈ cons, p = entry.index := by
    unfold Fill.selectIdx at hsel
    by_cases h1 : cons.length = 1
    · rw [if_pos h1] at hsel
      have h0 : 0 < cons.length := by omega
      refine ⟨cons.getD 0 _, ?_, (Except.ok.inj hsel).symm⟩
      rw [List.getD_eq_getElem cons _ h0]
      exact List.getElem_mem h0
    · rw [if_neg h1] at hsel
      by_cases h0 : cons.length = 0
      · rw [if_pos h0] at hsel; cases hsel
      · rw [if_neg h0] at hsel
        have hpos : 0 < cons.length := Nat.pos_of_ne_zero h0
        have hlt : k % cons.length < cons.length := Nat.mod_lt _ hpos
        refine ⟨cons.getD (k % cons.length) _, ?_, (Except.ok.inj hsel).symm⟩
        rw [List.getD_eq_getElem cons _ hlt]
        exact List.getElem_mem hlt
  obtain ⟨entry, hmem, hp⟩ := hentry
  exact ⟨entry, hmem, hp, hmax entry hmem⟩

/-- Witness for `c5_amended_random_among_max_sleep` at the concrete
two-soldier state of the counterexample. -/
theorem c5_amended_witness :
    ∃ entry ∈ ([{ index := 0, cid := 0, cname := "S", cons := 6 },
                { index := 1, cid := 1, cname := "S", cons := 4 }] :
        List Fill.ConsEntry), 1 = entry.index ∧
      ∃ sold, ([consA, consB])[entry.index]? = some sold ∧
        ∀ other ∈ [consA, consB], Fill.sleepZ 8 other ≤ Fill.sleepZ 8 sold :=
  c5_amended_random_among_max_sleep 8 22 6 [consA, consB] none (some 3) _ 1 1
    (by decide) (by decide)

unseal Rat.mul Rat.add Rat.sub Rat.inv in
/-- Every phase-2 iteration on the deadlocked state recomputes the same
`cons_hours` list, selects one of the two soldiers whichever value the
random draw takes, finds no empty slot whose time is absent from that
soldier's duty list, and leaves the state unchanged. -/
theorem deadlock_iter (ps : Option Nat) (hps : ps = none ∨ ps = some 6) (k : Nat) :
    Fill.fillIter 8 22 6 deadlockSfc deadlockStove ps k =
      .ok ((deadlockSfc, deadlockStove, some 6), false) := by
  have hc : Fill.consHoursFold 8 22 6 deadlockSfc ps = .ok (deadlockCons, some 6) := by
    rcases hps with rfl | rfl <;> decide
  have hsel : Fill.selectIdx deadlockCons k =
      .ok ((deadlockCons.getD (k % 2) ⟨0, 0, "", 0⟩).index) := by
    simp [Fill.selectIdx, deadlockCons]
  unfold Fill.fillIter
  rw [hc, exbind_ok]
  simp only []
  rw [hsel, exbind_ok]
  rcases Nat.mod_two_eq_zero_or_one k with h | h <;> rw [h]
  · decide
  · decide

/-- The phase-2 loop on the deadlocked state exhausts every fuel value:
the embedded `while True` never terminates. -/
theorem fill_deadlock_aux : ∀ (fuel : Nat) (rint : Nat → Nat) (ps : Option Nat),
    ps = none ∨ ps = some 6 →
    Fill.fillLoop 8 22 6 rint fuel deadlockSfc deadlockStove ps = .error .outOfFuel := by
  intro fuel
  induction fuel with
  | zero => intro rint ps _; rfl
  | succ n ih =>
      intro rint ps hps
      unfold Fill.fillLoop
      rw [deadlock_iter ps hps (rint n), exbind_ok]
      exact ih rint (some 6) (Or.inr rfl)

unseal Rat.mul Rat.add Rat.sub Rat.inv in
/-- C4.  On the reachable phase-2 state of `smallSquad` (window
`22:00`–`06:00`) some stove-watch slot is still empty, yet every
eligible soldier's duty list already contains the time of every empty
slot — the exact FillDeadlock premise.  The code does not detect this:
for every fuel bound and every random oracle the loop runs out of fuel,
i.e. the `while True` at line 394 spins forever; no named error of any
kind is raised (the program defines none). -/
theorem c4_fill_deadlock_loops_forever :
    ((deadlockStove.any fun sl => decide (sl.sid = none)) = true) ∧
      ((deadlockSfc.all fun sold => deadlockStove.all fun sl =>
          !decide (sl.sid = none) || decide (sl.time ∈ sold.timeOnDuty)) = true) ∧
      ∀ (fuel : Nat) (rint : Nat → Nat),
        Fill.fillLoop 8 22 6 rint fuel deadlockSfc deadlockStove none =
          .error .outOfFuel := by
  refine ⟨by decide, by decide, ?_⟩
  intro fuel rint
  exact fill_deadlock_aux fuel rint none (Or.inl rfl)

unseal Rat.mul Rat.add Rat.sub Rat.inv in
/-- C8.  The pipeline does not terminate on every valid input: for the
valid platoon `smallSquad` (one squad of five members, three drivers)
and the valid window `22:00`–`06:00`, `divide_night_routine_hours`
reaches the phase-2 deadlock and spins forever — for every fuel bound
and every random oracle the embedded run exhausts its fuel.  (The
hour-allocation rounding loop, by contrast, does terminate: see
`c1_hour_allocation`.) -/
theorem c8_pipeline_diverges_on_valid_input (fuel : Nat) (rint : Nat → Nat) :
    divideSquad 22 6 { shuf := id, sel := [0, 1], rint := rint, fuel := fuel }
        smallSquad windowSched = .error .outOfFuel := by
  change (Fill.fillLoop 8 22 6 rint fuel deadlockSfc deadlockStove none >>= _) = _
  rw [fill_deadlock_aux fuel rint none (Or.inl rfl)]
  rfl

/-- C5 counterexample.  Soldiers `consA` (duty `[23:00]`) and `consB`
(duty `[02:00]`) in the window `22:00`–`06:00` have equal sleep hours,
and `total_consecutive_sleep` 6 and 4 respectively — yet with random
draw 1 the selection returns soldier 1, the one with the *smaller*
contiguous-rest value, because the `with_largest_cons` filter (lines
452–457) is dead code and the pick at line 462 draws from the whole
maximum-sleep list. -/
theorem c5_counterexample_cons_ignored :
    Fill.consHoursFold 8 22 6 [consA, consB] none =
        .ok ([{ index := 0, cid := 0, cname := "S", cons := 6 },
              { index := 1, cid := 1, cname := "S", cons := 4 }], some 3) ∧
      Fill.selectIdx
          [{ index := 0, cid := 0, cname := "S", cons := 6 },
           { index := 1, cid := 1, cname := "S", cons := 4 }] 1 = .ok 1 ∧
      consA.timeOnDuty.length = consB.timeOnDuty.length := by
  refine ⟨by decide, by decide, by decide⟩

end NR
namespace NR
namespace Alloc

theorem frac_nonneg (q : ℚ) : 0 ≤ frac q := by
  rw [frac]
  have := Int.floor_le q
  linarith

theorem frac_lt_one (q : ℚ) : frac q < 1 := by
  rw [frac]
  have := Int.lt_floor_add_one q
  push_cast at this
  linarith

theorem abs_roundHalfEven (z : ℚ) : |((roundHalfEven z : ℤ) : ℚ) - z| ≤ 1 / 2 := by
  have h0 : ((⌊z⌋ : ℤ) : ℚ) ≤ z := Int.floor_le z
  have h1 : z < ((⌊z⌋ : ℤ) : ℚ) + 1 := Int.lt_floor_add_one z
  rw [roundHalfEven]
  split
  · rw [abs_le]
    constructor <;> push_cast <;> linarith
  · rename_i hge
    push_neg at hge
    split
    · rename_i hgt
      rw [abs_le]
      constructor <;> push_cast <;> linarith
    · rename_i hle
      push_neg at hle
      have heq : z - ((⌊z⌋ : ℤ) : ℚ) = 1 / 2 := le_antisymm hle hge
      split <;> rw [abs_le] <;> constructor <;> push_cast <;> linarith

theorem round2_approx (q : ℚ) : |round2 q - q| ≤ 1 / 200 := by
  rw [round2]
  have h := abs_roundHalfEven (100 * q)
  have h2 : |((roundHalfEven (100 * q) : ℤ) : ℚ) / 100 - q|
      = |((roundHalfEven (100 * q) : ℤ) : ℚ) - 100 * q| / 100 := by
    rw [← abs_of_pos (show (0:ℚ) < 100 by norm_num), ← abs_div]
    congr 1
    field_simp
  rw [h2]
  rw [div_le_iff₀ (by norm_num : (0:ℚ) < 100)]
  calc |((roundHalfEven (100 * q) : ℤ) : ℚ) - 100 * q| ≤ 1 / 2 := h
  _ = 1 / 200 * 100 := by norm_num

theorem roundHalfEven_intCast (z : ℤ) : roundHalfEven ((z : ℤ) : ℚ) = z := by
  rw [roundHalfEven]
  rw [Int.floor_intCast]
  split
  · rfl
  · rename_i h
    exfalso
    apply h
    norm_num

theorem round2_of_mul_int (q : ℚ) (z : ℤ) (h : 100 * q = (z : ℚ)) : round2 q = q := by
  rw [round2, h, roundHalfEven_intCast]
  field_simp
  linarith [h]

theorem round2_nonneg (q : ℚ) (h : 0 ≤ q) : 0 ≤ round2 q := by
  rw [round2]
  apply div_nonneg _ (by norm_num)
  have hz : (0 : ℤ) ≤ roundHalfEven (100 * q) := by
    rw [roundHalfEven]
    have h100 : (0 : ℚ) ≤ 100 * q := by positivity
    have hfl : (0 : ℤ) ≤ ⌊(100 : ℚ) * q⌋ := Int.floor_nonneg.mpr h100
    split
    · exact hfl
    · split
      · omega
      · split <;> omega
  exact_mod_cast hz

theorem round2_den (q : ℚ) : 100 * round2 q = ((roundHalfEven (100 * q) : ℤ) : ℚ) := by
  rw [round2]
  field_simp

end Alloc
end NR
namespace NR
namespace Alloc

theorem foldl_add_len (f : Squad → Nat) : ∀ (l : List Squad) (acc : Nat),
    l.foldl (fun a sq => a + f sq) acc = acc + (l.map f).sum
  | [], acc => by simp
  | sq :: l, acc => by
      simp only [List.foldl_cons, List.map_cons, List.sum_cons]
      rw [foldl_add_len f l (acc + f sq)]
      omega

theorem platoonSize_eq_sum (platoon : List Squad) :
    platoonSize platoon = (platoon.map fun sq => sq.squadMembers.length).sum := by
  rw [platoonSize, foldl_add_len]
  omega

theorem sum_sub_sum_abs_le (f g : Squad → ℚ) (c : ℚ) (hc : 0 ≤ c) :
    ∀ (l : List Squad), (∀ sq ∈ l, |f sq - g sq| ≤ c) →
      |(l.map f).sum - (l.map g).sum| ≤ (l.length : ℚ) * c
  | [], _ => by simp
  | sq :: l, h => by
      simp only [List.map_cons, List.sum_cons, List.length_cons]
      have h1 := h sq (List.mem_cons_self sq l)
      have h2 := sum_sub_sum_abs_le f g c hc l (fun x hx => h x (List.mem_cons_of_mem _ hx))
      calc |f sq + (l.map f).sum - (g sq + (l.map g).sum)|
          = |(f sq - g sq) + ((l.map f).sum - (l.map g).sum)| := by ring_nf
        _ ≤ |f sq - g sq| + |(l.map f).sum - (l.map g).sum| := abs_add _ _
        _ ≤ c + (l.length : ℚ) * c := add_le_add h1 h2
        _ ≤ ((l.length + 1 : ℕ) : ℚ) * c := by push_cast; nlinarith [hc]

theorem countP_mul_le_sum (p : ℚ → Bool) (c : ℚ) :
    ∀ (l : List ℚ), (∀ x ∈ l, 0 ≤ x) → (∀ x ∈ l, p x = true → c ≤ x) →
      (l.countP p : ℚ) * c ≤ l.sum
  | [], _, _ => by simp
  | x :: l, h0, hp => by
      have ih := countP_mul_le_sum p c l (fun y hy => h0 y (List.mem_cons_of_mem _ hy))
        (fun y hy hh => hp y (List.mem_cons_of_mem _ hy) hh)
      rw [List.countP_cons, List.sum_cons]
      by_cases hx : p x = true
      · rw [if_pos hx]
        have hcx := hp x (List.mem_cons_self x l) hx
        push_cast
        linarith
      · rw [if_neg hx]
        have h0x := h0 x (List.mem_cons_self x l)
        push_cast
        linarith

theorem sum_le_countP_add (p : ℚ → Bool) (c : ℚ) (hc : 0 ≤ c) :
    ∀ (l : List ℚ), (∀ x ∈ l, x ≤ 1) → (∀ x ∈ l, p x = false → x ≤ c) →
      l.sum ≤ (l.countP p : ℚ) + ((l.length - l.countP p : ℕ) : ℚ) * c
  | [], _, _ => by simp
  | x :: l, h1, hp => by
      have hcnt : l.countP p ≤ l.length := List.countP_le_length p
      have ih := sum_le_countP_add p c hc l (fun y hy => h1 y (List.mem_cons_of_mem _ hy))
        (fun y hy hh => hp y (List.mem_cons_of_mem _ hy) hh)
      rw [List.countP_cons, List.sum_cons, List.length_cons]
      by_cases hx : p x = true
      · rw [if_pos hx]
        have hx1 := h1 x (List.mem_cons_self x l)
        have hnat : l.length + 1 - (l.countP p + 1) = l.length - l.countP p := by omega
        rw [hnat]
        push_cast
        linarith
      · rw [if_neg hx]
        have hxc := hp x (List.mem_cons_self x l) (by simpa using hx)
        have hnat : l.length + 1 - (l.countP p + 0) = (l.length - l.countP p) + 1 := by omega
        rw [hnat]
        have hm : (((l.length - l.countP p) + 1 : ℕ) : ℚ) =
            ((l.length - l.countP p : ℕ) : ℚ) + 1 := by push_cast; ring
        rw [hm]
        push_cast
        linarith

theorem sumFloor_cast (l : List ℚ) :
    ((sumFloor l : ℤ) : ℚ) = l.sum - (l.map frac).sum := by
  induction l with
  | nil => simp [sumFloor]
  | cons x l ih =>
      simp only [sumFloor, List.map_cons, List.sum_cons] at ih ⊢
      push_cast
      push_cast at ih
      rw [frac]
      linarith

theorem sumFloor_nonneg (l : List ℚ) (h : ∀ x ∈ l, 0 ≤ x) : 0 ≤ sumFloor l := by
  induction l with
  | nil => simp [sumFloor]
  | cons x l ih =>
      simp only [sumFloor, List.map_cons, List.sum_cons]
      have h1 : (0 : ℤ) ≤ ⌊x⌋ := Int.floor_nonneg.mpr (h x (List.mem_cons_self x l))
      have h2 := ih (fun y hy => h y (List.mem_cons_of_mem _ hy))
      simp only [sumFloor] at h2
      omega

end Alloc
end NR
namespace NR
namespace Alloc

theorem share_round2_eq (H : Nat) (x : ℚ) :
    round2 ((H : ℚ) * round2 x) = (H : ℚ) * round2 x := by
  apply round2_of_mul_int _ ((H : ℤ) * roundHalfEven (100 * x))
  push_cast
  rw [mul_comm (100 : ℚ) ((H : ℚ) * round2 x), mul_assoc]
  rw [mul_comm (round2 x) (100 : ℚ), round2_den]

theorem share_err (H : Nat) (hH : H ≤ 23) (x : ℚ) :
    |round2 ((H : ℚ) * round2 x) - (H : ℚ) * x| ≤ 23 / 200 := by
  rw [share_round2_eq]
  have h := round2_approx x
  have hH0 : (0 : ℚ) ≤ (H : ℚ) := by positivity
  have hHle : (H : ℚ) ≤ 23 := by exact_mod_cast hH
  have hfac : (H : ℚ) * round2 x - (H : ℚ) * x = (H : ℚ) * (round2 x - x) := by ring
  calc |(H : ℚ) * round2 x - (H : ℚ) * x| = (H : ℚ) * |round2 x - x| := by
        rw [hfac, abs_mul, abs_of_nonneg hH0]
    _ ≤ (H : ℚ) * (1 / 200) := by
        apply mul_le_mul_of_nonneg_left h hH0
    _ ≤ 23 / 200 := by linarith

theorem sum_map_mul_const (c : ℚ) : ∀ (l : List Squad),
    (l.map fun sq => c * (sq.squadMembers.length : ℚ)).sum =
      c * (((l.map fun sq => sq.squadMembers.length).sum : ℕ) : ℚ)
  | [] => by simp
  | sq :: l => by
      simp only [List.map_cons, List.sum_cons]
      rw [sum_map_mul_const c l]
      push_cast
      ring

theorem exactShares_sum (H : Nat) (platoon : List Squad)
    (hN : 0 < platoonSize platoon) :
    (platoon.map fun sq =>
        (H : ℚ) * ((sq.squadMembers.length : ℚ) / (platoonSize platoon : ℚ))).sum
      = (H : ℚ) := by
  have hfun : (fun (sq : Squad) => (H : ℚ) * ((sq.squadMembers.length : ℚ) / (platoonSize platoon : ℚ)))
      = fun (sq : Squad) => ((H : ℚ) / (platoonSize platoon : ℚ)) * (sq.squadMembers.length : ℚ) := by
    funext sq
    ring
  rw [hfun, sum_map_mul_const, ← platoonSize_eq_sum]
  have hN0 : ((platoonSize platoon : ℕ) : ℚ) ≠ 0 := by
    exact_mod_cast Nat.pos_iff_ne_zero.mp hN
  field_simp

theorem shares_sum_near (H : Nat) (platoon : List Squad) (hH : H ≤ 23)
    (hN : 0 < platoonSize platoon) :
    |(shares H platoon).sum - (H : ℚ)| ≤ (platoon.length : ℚ) * (23 / 200) := by
  rw [shares]
  have h := sum_sub_sum_abs_le
    (fun sq => round2 ((H : ℚ) * round2 ((sq.squadMembers.length : ℚ) / (platoonSize platoon : ℚ))))
    (fun sq => (H : ℚ) * ((sq.squadMembers.length : ℚ) / (platoonSize platoon : ℚ)))
    (23 / 200) (by norm_num) platoon
    (fun sq _ => share_err H hH _)
  rw [exactShares_sum H platoon hN] at h
  exact h

theorem shares_nonneg (H : Nat) (platoon : List Squad) :
    ∀ x ∈ shares H platoon, 0 ≤ x := by
  intro x hx
  rw [shares] at hx
  obtain ⟨sq, _, rfl⟩ := List.mem_map.mp hx
  apply round2_nonneg
  apply mul_nonneg (by positivity)
  apply round2_nonneg
  by_cases hN : (platoonSize platoon : ℚ) = 0
  · rw [hN, div_zero]
  · positivity

end Alloc
end NR
namespace NR
namespace Alloc

theorem scanStep_cases (platoon : List Squad) (o : Nat → Bool) (hours : List ℚ)
    (best : ℤ × ℚ) (i : Nat) :
    (best.2 < frac (hours.getD i 0) ∧
      scanStep platoon o hours best i = ((i : ℤ), frac (hours.getD i 0))) ∨
    (best.2 = frac (hours.getD i 0) ∧
      (scanStep platoon o hours best i = ((i : ℤ), frac (hours.getD i 0)) ∨
       scanStep platoon o hours best i = (best.1, frac (hours.getD i 0)))) ∨
    (frac (hours.getD i 0) < best.2 ∧ scanStep platoon o hours best i = best) := by
  rw [scanStep]
  rcases lt_trichotomy best.2 (frac (hours.getD i 0)) with h | h | h
  · left
    exact ⟨h, by rw [if_pos h]⟩
  · right; left
    refine ⟨h, ?_⟩
    rw [if_neg (by rw [h]; exact lt_irrefl _), if_pos h]
    rw [if_neg (by simp [pyLenSquadDict]), if_neg (by simp [pyLenSquadDict])]
    cases ho : o i
    · right
      simp
    · left
      simp
  · right; right
    refine ⟨h, ?_⟩
    rw [if_neg (not_lt.mpr (le_of_lt h)), if_neg (ne_of_gt h)]

theorem scanGo_spec (platoon : List Squad) (o : Nat → Bool) (hours : List ℚ) :
    ∀ m : Nat,
      0 ≤ ((List.range m).foldl (scanStep platoon o hours) ((-1 : ℤ), (0 : ℚ))).2 ∧
      (∀ i, i < m → frac (hours.getD i 0) ≤
        ((List.range m).foldl (scanStep platoon o hours) ((-1 : ℤ), (0 : ℚ))).2) ∧
      ((0 : ℚ) < ((List.range m).foldl (scanStep platoon o hours) ((-1 : ℤ), (0 : ℚ))).2 →
        ∃ j, j < m ∧
          ((List.range m).foldl (scanStep platoon o hours) ((-1 : ℤ), (0 : ℚ))).1 = (j : ℤ) ∧
          frac (hours.getD j 0) =
            ((List.range m).foldl (scanStep platoon o hours) ((-1 : ℤ), (0 : ℚ))).2) := by
  intro m
  induction m with
  | zero => exact ⟨le_refl _, fun i hi => absurd hi (Nat.not_lt_zero i), fun h => absurd h (lt_irrefl _)⟩
  | succ n ih =>
      obtain ⟨ih0, ihmax, ihwit⟩ := ih
      set b := (List.range n).foldl (scanStep platoon o hours) ((-1 : ℤ), (0 : ℚ)) with hb
      have hfold : (List.range (n + 1)).foldl (scanStep platoon o hours) ((-1 : ℤ), (0 : ℚ)) =
          scanStep platoon o hours b n := by
        rw [List.range_succ, List.foldl_append, List.foldl_cons, List.foldl_nil]
      rw [hfold]
      rcases scanStep_cases platoon o hours b n with ⟨hlt, heq⟩ | ⟨heqd, hcase⟩ | ⟨hgt, heq⟩
      · rw [heq]
        refine ⟨le_trans ih0 (le_of_lt hlt), ?_, ?_⟩
        · intro i hi
          rcases Nat.lt_succ_iff_lt_or_eq.mp hi with hi | rfl
          · exact le_trans (ihmax i hi) (le_of_lt hlt)
          · exact le_refl _
        · intro _
          exact ⟨n, Nat.lt_succ_self n, rfl, rfl⟩
      · rcases hcase with heq | heq <;> rw [heq]
        · refine ⟨by rw [← heqd]; exact ih0, ?_, ?_⟩
          · intro i hi
            rcases Nat.lt_succ_iff_lt_or_eq.mp hi with hi | rfl
            · exact le_trans (ihmax i hi) (le_of_eq heqd)
            · exact le_refl _
          · intro _
            exact ⟨n, Nat.lt_succ_self n, rfl, rfl⟩
        · refine ⟨by rw [← heqd]; exact ih0, ?_, ?_⟩
          · intro i hi
            rcases Nat.lt_succ_iff_lt_or_eq.mp hi with hi | rfl
            · exact le_trans (ihmax i hi) (le_of_eq heqd)
            · exact le_refl _
          · intro hpos
            obtain ⟨j, hj, hj1, hj2⟩ := ihwit (by rw [heqd]; exact hpos)
            exact ⟨j, Nat.lt_succ_of_lt hj, hj1, by rw [hj2, heqd]⟩
      
      · rw [heq]
        refine ⟨ih0, ?_, ?_⟩
        · intro i hi
          rcases Nat.lt_succ_iff_lt_or_eq.mp hi with hi | rfl
          · exact ihmax i hi
          · exact le_of_lt hgt
        · intro hpos
          obtain ⟨j, hj, hj1, hj2⟩ := ihwit hpos
          exact ⟨j, Nat.lt_succ_of_lt hj, hj1, hj2⟩

theorem scanFold_spec (platoon : List Squad) (o : Nat → Bool) (hours : List ℚ)
    (hex : ∃ i, i < hours.length ∧ 23 / 200 < frac (hours.getD i 0)) :
    ∃ j, j < hours.length ∧ (scanFold platoon o hours).1 = (j : ℤ) ∧
      frac (hours.getD j 0) = (scanFold platoon o hours).2 ∧
      23 / 200 < frac (hours.getD j 0) ∧
      (∀ i, i < hours.length → frac (hours.getD i 0) ≤ frac (hours.getD j 0)) := by
  obtain ⟨i0, hi0, hfr0⟩ := hex
  obtain ⟨h0, hmax, hwit⟩ := scanGo_spec platoon o hours hours.length
  have hdef : scanFold platoon o hours =
      (List.range hours.length).foldl (scanStep platoon o hours) ((-1 : ℤ), (0 : ℚ)) := rfl
  rw [hdef]
  have hgt : (0 : ℚ) <
      ((List.range hours.length).foldl (scanStep platoon o hours) ((-1 : ℤ), (0 : ℚ))).2 :=
    lt_of_lt_of_le (lt_trans (by norm_num) hfr0) (hmax i0 hi0)
  obtain ⟨j, hj, hj1, hj2⟩ := hwit hgt
  refine ⟨j, hj, hj1, hj2, ?_, ?_⟩
  · rw [hj2]
    exact lt_of_lt_of_le hfr0 (hmax i0 hi0)
  · intro i hi
    rw [hj2]
    exact hmax i hi

end Alloc
end NR
namespace NR
namespace Alloc

theorem getD_set_self : ∀ (l : List ℚ) (j : Nat) (v : ℚ), j < l.length →
    (l.set j v).getD j 0 = v
  | [], j, v, h => by simp at h
  | x :: l, 0, v, _ => rfl
  | x :: l, j + 1, v, h => by
      simp only [List.set_cons_succ, List.getD_cons_succ]
      exact getD_set_self l j v (by simpa using h)

theorem getD_set_ne : ∀ (l : List ℚ) (j : Nat) (v : ℚ) (i : Nat), i ≠ j →
    (l.set j v).getD i 0 = l.getD i 0
  | [], _, _, _, _ => by simp
  | x :: l, 0, v, 0, h => absurd rfl h
  | x :: l, 0, v, i + 1, _ => rfl
  | x :: l, j + 1, v, 0, _ => rfl
  | x :: l, j + 1, v, i + 1, h => by
      simp only [List.set_cons_succ, List.getD_cons_succ]
      exact getD_set_ne l j v i (fun hh => h (by rw [hh]))

theorem sumFloor_set : ∀ (l : List ℚ) (j : Nat) (v : ℚ), j < l.length →
    sumFloor (l.set j v) + ⌊l.getD j 0⌋ = sumFloor l + ⌊v⌋
  | [], j, v, h => by simp at h
  | x :: l, 0, v, _ => by
      simp only [List.set_cons_zero, List.getD_cons_zero, sumFloor, List.map_cons,
        List.sum_cons]
      ring
  | x :: l, j + 1, v, h => by
      simp only [List.set_cons_succ, List.getD_cons_succ, sumFloor, List.map_cons,
        List.sum_cons]
      have := sumFloor_set l j v (by simpa using h)
      simp only [sumFloor] at this
      omega

theorem countP_set (p : ℚ → Bool) : ∀ (l : List ℚ) (j : Nat) (v : ℚ), j < l.length →
    (l.set j v).countP p + (if p (l.getD j 0) then 1 else 0) =
      l.countP p + (if p v then 1 else 0)
  | [], j, v, h => by simp at h
  | x :: l, 0, v, _ => by
      simp only [List.set_cons_zero, List.getD_cons_zero, List.countP_cons]
      omega
  | x :: l, j + 1, v, h => by
      simp only [List.set_cons_succ, List.getD_cons_succ, List.countP_cons]
      have := countP_set p l j v (by simpa using h)
      omega

theorem getD_mem : ∀ (l : List ℚ) (i : Nat), i < l.length → l.getD i 0 ∈ l
  | [], i, h => by simp at h
  | x :: l, 0, _ => List.mem_cons_self x l
  | x :: l, i + 1, h =>
      List.mem_cons_of_mem x (getD_mem l i (by simpa using h))

theorem frac_intCast (z : ℤ) : frac ((z : ℤ) : ℚ) = 0 := by
  rw [frac, Int.floor_intCast]
  ring

theorem ceil_of_frac_pos (q : ℚ) (h : 0 < frac q) : (⌈q⌉ : ℤ) = ⌊q⌋ + 1 := by
  have h1 : ⌈q⌉ ≤ ⌊q⌋ + 1 := Int.ceil_le_floor_add_one q
  have h2 : ((⌊q⌋ : ℤ) : ℚ) < q := by
    rw [frac] at h
    linarith
  have h3 : (⌊q⌋ : ℤ) < ⌈q⌉ := by
    have := Int.le_ceil q
    have : ((⌊q⌋ : ℤ) : ℚ) < ((⌈q⌉ : ℤ) : ℚ) := lt_of_lt_of_le h2 (Int.le_ceil q)
    exact_mod_cast this
  omega

theorem ceil_of_frac_zero (q : ℚ) (h : frac q = 0) : (⌈q⌉ : ℤ) = ⌊q⌋ := by
  have hq : q = ((⌊q⌋ : ℤ) : ℚ) := by
    rw [frac] at h
    linarith
  rw [hq, Int.ceil_intCast, Int.floor_intCast]

theorem floor_mem_pair (sp s : ℚ) (herr : |sp - s| ≤ 23 / 200)
    (hfr : frac sp < 177 / 200) : ⌊sp⌋ = ⌊s⌋ ∨ ⌊sp⌋ = ⌈s⌉ := by
  obtain ⟨he1, he2⟩ := abs_le.mp herr
  have hfl_s : ((⌊s⌋ : ℤ) : ℚ) ≤ s := Int.floor_le s
  have hce_s : s ≤ ((⌈s⌉ : ℤ) : ℚ) := Int.le_ceil s
  have hfl_sp : ((⌊sp⌋ : ℤ) : ℚ) ≤ sp := Int.floor_le sp
  have hlow : ⌊s⌋ ≤ ⌊sp⌋ := by
    by_contra hcon
    push_neg at hcon
    have hc2 : (⌊sp⌋ : ℤ) + 1 ≤ ⌊s⌋ := by omega
    have hc3 : ((⌊sp⌋ : ℤ) : ℚ) + 1 ≤ ((⌊s⌋ : ℤ) : ℚ) := by exact_mod_cast hc2
    rw [frac] at hfr
    linarith
  have hhigh : ⌊sp⌋ ≤ ⌈s⌉ := by
    have : ((⌊sp⌋ : ℤ) : ℚ) < ((⌈s⌉ : ℤ) : ℚ) + 1 := by linarith
    have : (⌊sp⌋ : ℤ) < ⌈s⌉ + 1 := by exact_mod_cast this
    omega
  have hfc : ⌊s⌋ ≤ ⌈s⌉ := Int.floor_le_ceil s
  have hcf : ⌈s⌉ ≤ ⌊s⌋ + 1 := Int.ceil_le_floor_add_one s
  omega

theorem ceil_mem_pair (sp s : ℚ) (herr : |sp - s| ≤ 23 / 200)
    (hfr : 23 / 200 < frac sp) : ⌈sp⌉ = ⌊s⌋ ∨ ⌈sp⌉ = ⌈s⌉ := by
  obtain ⟨he1, he2⟩ := abs_le.mp herr
  have hfl_s : ((⌊s⌋ : ℤ) : ℚ) ≤ s := Int.floor_le s
  have hce_s : s ≤ ((⌈s⌉ : ℤ) : ℚ) := Int.le_ceil s
  have hsp_ce : sp ≤ ((⌈sp⌉ : ℤ) : ℚ) := Int.le_ceil sp
  have hhigh : ⌈sp⌉ ≤ ⌈s⌉ := by
    by_contra hcon
    push_neg at hcon
    have hgt : ((⌈s⌉ : ℤ) : ℚ) < sp := by
      have h1 : (⌈s⌉ : ℤ) + 1 ≤ ⌈sp⌉ := by omega
      have h2 : ((⌈sp⌉ : ℤ) : ℚ) - 1 < sp := by
        have := Int.ceil_lt_add_one sp
        linarith
      have h3 : ((⌈s⌉ : ℤ) : ℚ) + 1 ≤ ((⌈sp⌉ : ℤ) : ℚ) := by exact_mod_cast h1
      linarith
    have hfl_ge : ((⌈s⌉ : ℤ) : ℚ) ≤ ((⌊sp⌋ : ℤ) : ℚ) := by
      have : (⌈s⌉ : ℤ) ≤ ⌊sp⌋ := Int.le_floor.mpr (le_of_lt hgt)
      exact_mod_cast this
    rw [frac] at hfr
    linarith
  have hlow : ⌊s⌋ ≤ ⌈sp⌉ := by
    have : ((⌊s⌋ : ℤ) : ℚ) - 1 < ((⌈sp⌉ : ℤ) : ℚ) := by linarith
    have : (⌊s⌋ : ℤ) - 1 < ⌈sp⌉ := by exact_mod_cast this
    omega
  have hcf : ⌈s⌉ ≤ ⌊s⌋ + 1 := Int.ceil_le_floor_add_one s
  omega

end Alloc
end NR
namespace NR
namespace Alloc

theorem allocStep_set (platoon : List Squad) (o : Nat → Bool) (hours : List ℚ)
    (hex : ∃ i, i < hours.length ∧ 23 / 200 < frac (hours.getD i 0)) :
    ∃ j, j < hours.length ∧ 23 / 200 < frac (hours.getD j 0) ∧
      (∀ i, i < hours.length → frac (hours.getD i 0) ≤ frac (hours.getD j 0)) ∧
      allocStep platoon o hours = hours.set j ((⌈hours.getD j 0⌉ : ℤ) : ℚ) := by
  obtain ⟨j, hj, hj1, hj2, hj3, hj4⟩ := scanFold_spec platoon o hours hex
  refine ⟨j, hj, hj3, hj4, ?_⟩
  rw [allocStep, ceilAt, hj1]
  have hnneg : ¬ ((j : ℤ) < 0) := by omega
  simp only [if_neg hnneg, Int.toNat_natCast]

theorem countP_set_ft (p : ℚ → Bool) (l : List ℚ) (j : Nat) (v : ℚ)
    (h : j < l.length) (hv : p v = false) (hq : p (l.getD j 0) = true) :
    (l.set j v).countP p + 1 = l.countP p := by
  have hc := countP_set p l j v h
  rw [hq, hv] at hc
  simpa using hc

theorem countP_set_ff (p : ℚ → Bool) (l : List ℚ) (j : Nat) (v : ℚ)
    (h : j < l.length) (hv : p v = false) (hq : p (l.getD j 0) = false) :
    (l.set j v).countP p = l.countP p := by
  have hc := countP_set p l j v h
  rw [hq, hv] at hc
  simpa using hc

theorem allocStep_inv (platoon : List Squad) (o : Nat → Bool) (H : Nat)
    (sh hours : List ℚ) (hinv : LoopInv H sh hours)
    (hlt : sumFloor hours < (H : ℤ)) :
    LoopInv H sh (allocStep platoon o hours) ∧
      sumFloor (allocStep platoon o hours) = sumFloor hours + 1 := by
  obtain ⟨hlen, hmem, hA, hB⟩ := hinv
  have hcpos : 0 < hours.countP fun q => decide ((23 : ℚ) / 200 < frac q) := by omega
  have hex : ∃ i, i < hours.length ∧ 23 / 200 < frac (hours.getD i 0) := by
    obtain ⟨x, hxmem, hxp⟩ := List.countP_pos_iff.mp hcpos
    obtain ⟨i, hi, hix⟩ := List.getElem_of_mem hxmem
    refine ⟨i, hi, ?_⟩
    rw [List.getD_eq_getElem hours 0 hi, hix]
    simpa using hxp
  obtain ⟨j, hj, hjfr, hjmax, hset⟩ := allocStep_set platoon o hours hex
  have hfrv : frac ((⌈hours.getD j 0⌉ : ℤ) : ℚ) = 0 := frac_intCast _
  have hfloorv : ⌊((⌈hours.getD j 0⌉ : ℤ) : ℚ)⌋ = ⌊hours.getD j 0⌋ + 1 := by
    rw [Int.floor_intCast]
    exact ceil_of_frac_pos _ (by linarith)
  have hsum : sumFloor (hours.set j ((⌈hours.getD j 0⌉ : ℤ) : ℚ)) = sumFloor hours + 1 := by
    have h2 := sumFloor_set hours j ((⌈hours.getD j 0⌉ : ℤ) : ℚ) hj
    omega
  rw [hset]
  have hlen' : (hours.set j ((⌈hours.getD j 0⌉ : ℤ) : ℚ)).length = sh.length := by
    rw [List.length_set]
    exact hlen
  refine ⟨⟨hlen', ?_, ?_, ?_⟩, hsum⟩
  · intro i hi
    by_cases hij : i = j
    · subst hij
      rw [getD_set_self hours i ((⌈hours.getD i 0⌉ : ℤ) : ℚ) hj]
      rcases hmem i hi with hcase | ⟨hcase, _⟩
      · right
        constructor
        · rw [hcase]
        · right
          rw [← hcase]
          exact hjfr
      · exfalso
        have hz : frac (hours.getD i 0) = 0 := by
          rw [hcase]
          exact frac_intCast _
        rw [hz] at hjfr
        norm_num at hjfr
    · rw [getD_set_ne hours j ((⌈hours.getD j 0⌉ : ℤ) : ℚ) i hij]
      exact hmem i hi
  · rw [hsum]
    have hvfalse : (decide ((177 : ℚ) / 200 ≤ frac ((⌈hours.getD j 0⌉ : ℤ) : ℚ))) = false :=
      decide_eq_false (by rw [hfrv]; norm_num)
    by_cases hqh : (177 : ℚ) / 200 ≤ frac (hours.getD j 0)
    · have hqt : (decide ((177 : ℚ) / 200 ≤ frac (hours.getD j 0))) = true :=
        decide_eq_true hqh
      have := countP_set_ft (fun q => decide ((177 : ℚ) / 200 ≤ frac q)) hours j
        ((⌈hours.getD j 0⌉ : ℤ) : ℚ) hj hvfalse hqt
      omega
    · have hqf : (decide ((177 : ℚ) / 200 ≤ frac (hours.getD j 0))) = false :=
        decide_eq_false hqh
      have heq := countP_set_ff (fun q => decide ((177 : ℚ) / 200 ≤ frac q)) hours j
        ((⌈hours.getD j 0⌉ : ℤ) : ℚ) hj hvfalse hqf
      have hzero : (hours.countP fun q => decide ((177 : ℚ) / 200 ≤ frac q)) = 0 := by
        rw [List.countP_eq_zero]
        intro x hxmem
        obtain ⟨i, hi, hix⟩ := List.getElem_of_mem hxmem
        have hxi : hours.getD i 0 = x := by
          rw [List.getD_eq_getElem hours 0 hi, hix]
        have hle := hjmax i hi
        rw [hxi] at hle
        simp only [decide_eq_true_eq]
        push_neg at hqh
        intro hcon
        linarith
      rw [heq, hzero]
      omega
  · rw [hsum]
    have hvfalse : (decide ((23 : ℚ) / 200 < frac ((⌈hours.getD j 0⌉ : ℤ) : ℚ))) = false :=
      decide_eq_false (by rw [hfrv]; norm_num)
    have hqt : (decide ((23 : ℚ) / 200 < frac (hours.getD j 0))) = true :=
      decide_eq_true hjfr
    have := countP_set_ft (fun q => decide ((23 : ℚ) / 200 < frac q)) hours j
      ((⌈hours.getD j 0⌉ : ℤ) : ℚ) hj hvfalse hqt
    omega

theorem allocLoop_spec (platoon : List Squad) (o : Nat → Nat → Bool) (H : Nat)
    (sh : List ℚ) : ∀ (fuel : Nat) (hours : List ℚ),
    LoopInv H sh hours → sumFloor hours ≤ (H : ℤ) →
    (H : ℤ) - sumFloor hours ≤ (fuel : ℤ) →
    LoopInv H sh (allocLoop H platoon o fuel hours) ∧
      sumFloor (allocLoop H platoon o fuel hours) = (H : ℤ)
  | 0, hours, hinv, hle, hfuel => by
      rw [allocLoop]
      refine ⟨hinv, ?_⟩
      push_cast at hfuel
      omega
  | fuel + 1, hours, hinv, hle, hfuel => by
      rw [allocLoop]
      by_cases hlt : sumFloor hours < (H : ℤ)
      · rw [if_pos hlt]
        obtain ⟨hinv', hsum'⟩ := allocStep_inv platoon (o fuel) H sh hours hinv hlt
        refine allocLoop_spec platoon o H sh fuel _ hinv' (by omega) ?_
        push_cast at hfuel
        omega
      · rw [if_neg hlt]
        exact ⟨hinv, by omega⟩

end Alloc
end NR
namespace NR
namespace Alloc

theorem shares_getD (H : Nat) (platoon : List Squad) (i : Nat) (hi : i < platoon.length) :
    (shares H platoon).getD i 0 =
      round2 ((H : ℚ) * round2
        (((platoon.getD i { squadNumber := 0, squadMembers := [] }).squadMembers.length : ℚ) /
          (platoonSize platoon : ℚ))) := by
  rw [shares, List.getD_eq_getElem _ _ (by simpa using hi), List.getElem_map,
    List.getD_eq_getElem _ _ hi]

theorem allocInit (H : Nat) (platoon : List Squad) (hH : H ≤ 23)
    (hk : platoon.length ≤ 4) (hN : 0 < platoonSize platoon) :
    LoopInv H (shares H platoon) (shares H platoon) ∧
      0 ≤ sumFloor (shares H platoon) ∧ sumFloor (shares H platoon) ≤ (H : ℤ) := by
  set sh := shares H platoon with hsh
  have hnear : |sh.sum - (H : ℚ)| ≤ (platoon.length : ℚ) * (23 / 200) :=
    shares_sum_near H platoon hH hN
  have hk4 : ((platoon.length : ℕ) : ℚ) ≤ 4 := by exact_mod_cast hk
  have hnear2 : |sh.sum - (H : ℚ)| ≤ 92 / 200 := le_trans hnear (by nlinarith)
  obtain ⟨hnA, hnB⟩ := abs_le.mp hnear2
  have hnonneg : ∀ x ∈ sh, 0 ≤ x := shares_nonneg H platoon
  have hF : ((sumFloor sh : ℤ) : ℚ) = sh.sum - (sh.map frac).sum := sumFloor_cast sh
  have hlensh : sh.length = platoon.length := by
    rw [hsh, shares, List.length_map]
  have hfrac_nonneg : ∀ x ∈ sh.map frac, 0 ≤ x := by
    intro x hx
    obtain ⟨q, _, rfl⟩ := List.mem_map.mp hx
    exact frac_nonneg q
  have hFle : sumFloor sh ≤ (H : ℤ) := by
    have hfs : 0 ≤ (sh.map frac).sum := List.sum_nonneg hfrac_nonneg
    by_contra hcon
    push_neg at hcon
    have hc1 : (H : ℤ) + 1 ≤ sumFloor sh := by omega
    have hc1q : (H : ℚ) + 1 ≤ ((sumFloor sh : ℤ) : ℚ) := by exact_mod_cast hc1
    rw [hF] at hc1q
    linarith
  have hF0 : 0 ≤ sumFloor sh := sumFloor_nonneg sh hnonneg
  have hAinit : ((sh.countP fun q => decide ((177 : ℚ) / 200 ≤ frac q)) : ℤ) ≤
      (H : ℤ) - sumFloor sh := by
    by_contra hcon
    push_neg at hcon
    have hcnt_eq : (sh.map frac).countP (fun x => decide ((177 : ℚ) / 200 ≤ x)) =
        sh.countP fun q => decide ((177 : ℚ) / 200 ≤ frac q) := by
      rw [List.countP_map]
      rfl
    have hsumlb := countP_mul_le_sum (fun x => decide ((177 : ℚ) / 200 ≤ x)) (177 / 200)
      (sh.map frac) hfrac_nonneg (fun x _ hx => by simpa using hx)
    rw [hcnt_eq] at hsumlb
    have hch4 : (sh.countP fun q => decide ((177 : ℚ) / 200 ≤ frac q)) ≤ 4 :=
      le_trans (List.countP_le_length _) (hlensh ▸ hk)
    have hc1 : (H : ℤ) - sumFloor sh + 1 ≤
        ((sh.countP fun q => decide ((177 : ℚ) / 200 ≤ frac q)) : ℤ) := by omega
    have hc1q : (H : ℚ) - ((sumFloor sh : ℤ) : ℚ) + 1 ≤
        ((sh.countP fun q => decide ((177 : ℚ) / 200 ≤ frac q)) : ℚ) := by exact_mod_cast hc1
    have hch4q : ((sh.countP fun q => decide ((177 : ℚ) / 200 ≤ frac q)) : ℚ) ≤ 4 := by
      exact_mod_cast hch4
    rw [hF] at hc1q
    linarith
  have hBinit : (H : ℤ) - sumFloor sh ≤
      ((sh.countP fun q => decide ((23 : ℚ) / 200 < frac q)) : ℤ) := by
    have hcnt_eq : (sh.map frac).countP (fun x => decide ((23 : ℚ) / 200 < x)) =
        sh.countP fun q => decide ((23 : ℚ) / 200 < frac q) := by
      rw [List.countP_map]
      rfl
    have hub := sum_le_countP_add (fun x => decide ((23 : ℚ) / 200 < x)) (23 / 200)
      (by norm_num) (sh.map frac)
      (fun x hx => by
        obtain ⟨q, _, rfl⟩ := List.mem_map.mp hx
        exact le_of_lt (frac_lt_one q))
      (fun x _ hfalse => le_of_not_lt (by simpa using hfalse))
    rw [hcnt_eq] at hub
    have hsub4 : ((sh.map frac).length - (sh.map frac).countP (fun x => decide ((23 : ℚ) / 200 < x)) : ℕ) ≤ 4 :=
      le_trans (Nat.sub_le _ _) (by rw [List.length_map, hlensh]; exact hk)
    rw [hcnt_eq] at hsub4
    have hsub4q : (((sh.map frac).length - sh.countP (fun q => decide ((23 : ℚ) / 200 < frac q)) : ℕ) : ℚ) ≤ 4 := by
      rw [hcnt_eq] at *
      exact_mod_cast hsub4
    by_contra hcon
    push_neg at hcon
    have hc1 : ((sh.countP fun q => decide ((23 : ℚ) / 200 < frac q)) : ℤ) + 1 ≤
        (H : ℤ) - sumFloor sh := by omega
    have hc1q : ((sh.countP fun q => decide ((23 : ℚ) / 200 < frac q)) : ℚ) + 1 ≤
        (H : ℚ) - ((sumFloor sh : ℤ) : ℚ) := by exact_mod_cast hc1
    rw [hF] at hc1q
    have hcnt_eq2 : (((sh.map frac).length -
        (sh.map frac).countP (fun x => decide ((23 : ℚ) / 200 < x)) : ℕ) : ℚ) ≤ 4 := by
      rw [hcnt_eq]
      exact hsub4q
    linarith [hub, hcnt_eq2]
  exact ⟨⟨rfl, fun i _ => Or.inl rfl, hAinit, hBinit⟩, hF0, hFle⟩

end Alloc
end NR
namespace NR

/-- The total member count of a non-empty platoon of non-empty squads
is positive. -/
theorem platoonSize_pos (platoon : List Squad) (hk0 : platoon ≠ [])
    (hmem : ∀ sq ∈ platoon, 0 < sq.squadMembers.length) :
    0 < Alloc.platoonSize platoon := by
  obtain ⟨sq, hsq⟩ := List.exists_mem_of_ne_nil platoon hk0
  have h1 : sq.squadMembers.length ∈ platoon.map fun s => s.squadMembers.length :=
    List.mem_map_of_mem _ hsq
  have h2 : sq.squadMembers.length ≤ (platoon.map fun s => s.squadMembers.length).sum :=
    List.single_le_sum (fun x _ => Nat.zero_le x) _ h1
  rw [Alloc.platoonSize_eq_sum]
  exact lt_of_lt_of_le (hmem sq hsq) h2

/-- C1: for a window of `H` hours (`1 ≤ H ≤ 23`) and a platoon of at
most four non-empty squads, `generate_night_routine_hours` terminates
within its fuel, the allocated integer hours sum to exactly `H`, and
every squad receives the floor or the ceiling of its exact
proportional share `H * len(members) / platoon_size` — for every
outcome of the random tie-breaks. -/
theorem c1_hour_allocation (H : Nat) (platoon : List Squad) (o : Nat → Nat → Bool)
    (hH0 : 0 < H) (hH : H ≤ 23) (hk0 : platoon ≠ []) (hk : platoon.length ≤ 4)
    (hmem : ∀ sq ∈ platoon, 0 < sq.squadMembers.length) :
    (Alloc.generateHours H platoon o).sum = (H : ℤ) ∧
    ∀ i, i < platoon.length →
      (Alloc.generateHours H platoon o).getD i 0 =
          ⌊(H : ℚ) * (((platoon.getD i { squadNumber := 0, squadMembers := [] }).squadMembers.length : ℚ) /
            (Alloc.platoonSize platoon : ℚ))⌋ ∨
        (Alloc.generateHours H platoon o).getD i 0 =
          ⌈(H : ℚ) * (((platoon.getD i { squadNumber := 0, squadMembers := [] }).squadMembers.length : ℚ) /
            (Alloc.platoonSize platoon : ℚ))⌉ := by
  have hN : 0 < Alloc.platoonSize platoon := platoonSize_pos platoon hk0 hmem
  obtain ⟨hinv0, hF0, hFle⟩ := Alloc.allocInit H platoon hH hk hN
  have hfuel : (H : ℤ) - Alloc.sumFloor (Alloc.shares H platoon) ≤ ((H : ℕ) : ℤ) := by
    omega
  obtain ⟨hinvF, hsumF⟩ :=
    Alloc.allocLoop_spec platoon o H (Alloc.shares H platoon) H (Alloc.shares H platoon)
      hinv0 hFle hfuel
  have hdefG : Alloc.generateHours H platoon o =
      (Alloc.allocLoop H platoon o H (Alloc.shares H platoon)).map fun q => (⌊q⌋ : ℤ) := rfl
  refine ⟨hsumF, ?_⟩
  intro i hi
  have hlensh : (Alloc.shares H platoon).length = platoon.length := by
    simp [Alloc.shares]
  have hish : i < (Alloc.shares H platoon).length := by omega
  have hiF : i < (Alloc.allocLoop H platoon o H (Alloc.shares H platoon)).length := by
    rw [hinvF.1]
    exact hish
  have hg : (Alloc.generateHours H platoon o).getD i 0 =
      ⌊(Alloc.allocLoop H platoon o H (Alloc.shares H platoon)).getD i 0⌋ := by
    rw [hdefG, List.getD_eq_getElem _ _ (by simpa using hiF), List.getElem_map,
      List.getD_eq_getElem _ _ hiF]
  have herr : |(Alloc.shares H platoon).getD i 0 -
      (H : ℚ) * (((platoon.getD i { squadNumber := 0, squadMembers := [] }).squadMembers.length : ℚ) /
        (Alloc.platoonSize platoon : ℚ))| ≤ 23 / 200 := by
    rw [Alloc.shares_getD H platoon i hi]
    exact Alloc.share_err H hH _
  have hcH0 : (Alloc.allocLoop H platoon o H (Alloc.shares H platoon)).countP
      (fun q => decide ((177 : ℚ) / 200 ≤ Alloc.frac q)) = 0 := by
    have hA := hinvF.2.2.1
    rw [hsumF] at hA
    omega
  have hfrlt : Alloc.frac ((Alloc.allocLoop H platoon o H (Alloc.shares H platoon)).getD i 0) <
      177 / 200 := by
    have hni := List.countP_eq_zero.mp hcH0 _
      (Alloc.getD_mem (Alloc.allocLoop H platoon o H (Alloc.shares H platoon)) i hiF)
    exact lt_of_not_le (by simpa using hni)
  rcases hinvF.2.1 i hish with heq | ⟨heq, hfrsh⟩
  · rw [heq] at hfrlt
    have hfm := Alloc.floor_mem_pair _ _ herr hfrlt
    rw [hg, heq]
    exact hfm
  · rw [hg, heq, Int.floor_intCast]
    rcases hfrsh with hfrz | hfr23
    · have hfm := Alloc.floor_mem_pair _ _ herr (by rw [hfrz]; norm_num)
      rw [Alloc.ceil_of_frac_zero _ hfrz]
      exact hfm
    · exact Alloc.ceil_mem_pair _ _ herr hfr23

/-- Witness for C1: the hypotheses hold for the window `H = 10` and the
three squads of sizes 5, 9 and 6. -/
theorem c1_witness :
    (0 < 10 ∧ 10 ≤ 23 ∧ tiePlatoon ≠ [] ∧ tiePlatoon.length ≤ 4 ∧
      ∀ sq ∈ tiePlatoon, 0 < sq.squadMembers.length) ∧
    ((Alloc.generateHours 10 tiePlatoon (fun _ _ => false)).sum = (10 : ℤ) ∧
      ∀ i, i < tiePlatoon.length →
        (Alloc.generateHours 10 tiePlatoon (fun _ _ => false)).getD i 0 =
            ⌊(10 : ℚ) * (((tiePlatoon.getD i { squadNumber := 0, squadMembers := [] }).squadMembers.length : ℚ) /
              (Alloc.platoonSize tiePlatoon : ℚ))⌋ ∨
          (Alloc.generateHours 10 tiePlatoon (fun _ _ => false)).getD i 0 =
            ⌈(10 : ℚ) * (((tiePlatoon.getD i { squadNumber := 0, squadMembers := [] }).squadMembers.length : ℚ) /
              (Alloc.platoonSize tiePlatoon : ℚ))⌉) :=
  ⟨⟨by decide, by decide, by decide, by decide, by decide⟩,
    c1_hour_allocation 10 tiePlatoon (fun _ _ => false) (by decide) (by decide)
      (by decide) (by decide) (by decide)⟩

end NR
namespace NR

theorem getD_map {α β : Type} (f : α → β) : ∀ (l : List α) (j : Nat) (d : α),
    (l.map f).getD j (f d) = f (l.getD j d)
  | [], _, _ => rfl
  | _ :: _, 0, _ => rfl
  | _ :: l, j + 1, d => getD_map f l j d

theorem mem_modifyIdx {α : Type} : ∀ (l : List α) (n : Nat) (f : α → α) (x : α),
    x ∈ modifyIdx l n f → x ∈ l ∨ ∃ h : n < l.length, x = f (l.get ⟨n, h⟩)
  | [], _, _, _, h => Or.inl h
  | a :: l, 0, f, x, h => by
      rcases List.mem_cons.mp h with h1 | h2
      · exact Or.inr ⟨Nat.succ_pos _, h1⟩
      · exact Or.inl (List.mem_cons_of_mem _ h2)
  | a :: l, n + 1, f, x, h => by
      rcases List.mem_cons.mp h with h1 | h2
      · exact Or.inl (h1 ▸ List.mem_cons_self a l)
      · rcases mem_modifyIdx l n f x h2 with h3 | ⟨hlt, hx⟩
        · exact Or.inl (List.mem_cons_of_mem _ h3)
        · exact Or.inr ⟨Nat.succ_lt_succ hlt, hx⟩

theorem modifyIdx_map {α β : Type} (g : α → β) (f : α → α) (hf : ∀ a, g (f a) = g a) :
    ∀ (l : List α) (n : Nat), (modifyIdx l n f).map g = l.map g
  | [], _ => rfl
  | a :: l, 0 => by
      show g (f a) :: l.map g = g a :: l.map g
      rw [hf]
  | a :: l, n + 1 => by
      show g a :: (modifyIdx l n f).map g = g a :: l.map g
      rw [modifyIdx_map g f hf l n]

theorem map_set_same {α β : Type} (f : α → β) : ∀ (l : List α) (n : Nat) (a : α),
    (∀ h : n < l.length, f a = f (l.get ⟨n, h⟩)) → (l.set n a).map f = l.map f
  | [], _, _, _ => rfl
  | b :: l, 0, a, h => by
      show f a :: l.map f = f b :: l.map f
      rw [h (Nat.succ_pos _)]
      rfl
  | b :: l, n + 1, a, h => by
      show f b :: (l.set n a).map f = f b :: l.map f
      rw [map_set_same f l n a fun hlt => h (Nat.succ_lt_succ hlt)]

theorem mem_of_mem_foldl_erase {α : Type} [DecidableEq α] :
    ∀ (ds l : List α) (x : α), x ∈ ds.foldl (fun acc d => acc.erase d) l → x ∈ l
  | [], _, _, h => h
  | d :: ds, l, x, h => List.mem_of_mem_erase (mem_of_mem_foldl_erase ds (l.erase d) x h)

theorem driverRun_succ_fw (c : Nat) (factor : ℤ) (d : Soldier) (slots : List StoveSlot) :
    Driver.driverRun true (c + 1) factor d slots =
      Driver.driverRun true c (factor + 1)
        { d with timeOnDuty := d.timeOnDuty ++
            [(slots.getD (pyResolve slots.length factor).toNat
                { time := 0, sname := none, sid := none }).time] }
        (modifyIdx slots (pyResolve slots.length factor).toNat
          (fun sl => { sl with sid := some d.id, sname := some d.name })) := rfl

theorem driverRun_succ_bw (c : Nat) (factor : ℤ) (d : Soldier) (slots : List StoveSlot) :
    Driver.driverRun false (c + 1) factor d slots =
      Driver.driverRun false c (factor - 1)
        { d with timeOnDuty := d.timeOnDuty ++
            [(slots.getD (pyResolve slots.length factor).toNat
                { time := 0, sname := none, sid := none }).time] }
        (modifyIdx slots (pyResolve slots.length factor).toNat
          (fun sl => { sl with sid := some d.id, sname := some d.name })) := rfl

theorem driverRun_duty_fw : ∀ (c j0 : Nat) (d : Soldier) (slots : List StoveSlot),
    j0 + c ≤ slots.length →
    (Driver.driverRun true c ((j0 : ℕ) : ℤ) d slots).2.timeOnDuty =
      d.timeOnDuty ++ ((slots.map (fun sl => sl.time)).drop j0).take c
  | 0, j0, d, slots, _ => by simp [Driver.driverRun]
  | c + 1, j0, d, slots, h => by
      have hres : (pyResolve slots.length ((j0 : ℕ) : ℤ)).toNat = j0 := by
        rw [pyResolve_nonneg _ _ (Int.natCast_nonneg j0)]
        omega
      rw [driverRun_succ_fw, hres]
      have hcast : ((j0 : ℕ) : ℤ) + 1 = (((j0 + 1 : ℕ)) : ℤ) := by push_cast; ring
      rw [hcast]
      rw [driverRun_duty_fw c (j0 + 1) _ _ (by rw [modifyIdx_length]; omega)]
      rw [modifyIdx_map (fun sl => sl.time)
        (fun sl => { sl with sid := some d.id, sname := some d.name }) (fun _ => rfl) slots j0]
      have hj0 : j0 < (slots.map (fun sl => sl.time)).length := by
        rw [List.length_map]
        omega
      have ht : (slots.getD j0 { time := 0, sname := none, sid := none }).time =
          (slots.map (fun sl => sl.time))[j0] := by
        rw [← getD_map (fun sl => sl.time) slots j0 { time := 0, sname := none, sid := none }]
        exact List.getD_eq_getElem _ _ hj0
      rw [ht, List.append_assoc]
      congr 1
      rw [List.drop_eq_getElem_cons hj0]
      rfl

theorem driverRun_duty_bw : ∀ (c m : Nat) (d : Soldier) (slots : List StoveSlot),
    1 ≤ m → m + c ≤ slots.length + 1 →
    (Driver.driverRun false c (-((m : ℕ) : ℤ)) d slots).2.timeOnDuty =
      d.timeOnDuty ++
        (((slots.map (fun sl => sl.time)).drop (slots.length + 1 - m - c)).take c).reverse
  | 0, m, d, slots, _, _ => by simp [Driver.driverRun]
  | c + 1, m, d, slots, hm, h => by
      have hres : (pyResolve slots.length (-((m : ℕ) : ℤ))).toNat = slots.length - m := by
        rw [pyResolve_neg _ _ (by omega)]
        omega
      rw [driverRun_succ_bw, hres]
      have hcast : -((m : ℕ) : ℤ) - 1 = -(((m + 1 : ℕ)) : ℤ) := by push_cast; ring
      rw [hcast]
      rw [driverRun_duty_bw c (m + 1) _ _ (by omega) (by rw [modifyIdx_length]; omega)]
      rw [modifyIdx_map (fun sl => sl.time)
        (fun sl => { sl with sid := some d.id, sname := some d.name }) (fun _ => rfl) slots
        (slots.length - m)]
      have hlen : (slots.map (fun sl => sl.time)).length = slots.length := List.length_map _ _
      have hmn : slots.length - m < (slots.map (fun sl => sl.time)).length := by omega
      have ht : (slots.getD (slots.length - m) { time := 0, sname := none, sid := none }).time =
          (slots.map (fun sl => sl.time))[slots.length - m] := by
        rw [← getD_map (fun sl => sl.time) slots (slots.length - m)
          { time := 0, sname := none, sid := none }]
        exact List.getD_eq_getElem _ _ hmn
      rw [ht, List.append_assoc]
      congr 1
      have hq : (modifyIdx slots (slots.length - m)
          (fun sl => { sl with sid := some d.id, sname := some d.name })).length = slots.length :=
        modifyIdx_length _ _ _
      rw [hq]
      have hq2 : slots.length + 1 - (m + 1) - c = slots.length + 1 - m - (c + 1) := by omega
      rw [hq2]
      have hcq : c < ((slots.map (fun sl => sl.time)).drop
          (slots.length + 1 - m - (c + 1))).length := by
        rw [List.length_drop]
        omega
      rw [← List.take_concat_get _ c hcq, List.concat_eq_append, List.reverse_append]
      have hgd : ((slots.map (fun sl => sl.time)).drop (slots.length + 1 - m - (c + 1)))[c] =
          (slots.map (fun sl => sl.time))[slots.length - m] := by
        rw [List.getElem_drop]
        congr 1
        omega
      rw [hgd]
      rfl

end NR
namespace NR

theorem driverRun_map_time (fw : Bool) : ∀ (c : Nat) (factor : ℤ) (d : Soldier)
    (slots : List StoveSlot),
    ((Driver.driverRun fw c factor d slots).1).map (fun sl => sl.time) =
      slots.map (fun sl => sl.time)
  | 0, _, _, _ => rfl
  | c + 1, factor, d, slots => by
      cases fw with
      | true =>
          rw [driverRun_succ_fw, driverRun_map_time true c _ _ _]
          exact modifyIdx_map (fun sl => sl.time)
            (fun sl => { sl with sid := some d.id, sname := some d.name }) (fun _ => rfl)
            slots _
      | false =>
          rw [driverRun_succ_bw, driverRun_map_time false c _ _ _]
          exact modifyIdx_map (fun sl => sl.time)
            (fun sl => { sl with sid := some d.id, sname := some d.name }) (fun _ => rfl)
            slots _

theorem driverRun_duty_nodup_fw (c : Nat) (d : Soldier) (slots : List StoveSlot)
    (hc : c ≤ slots.length) (hd : d.timeOnDuty = [])
    (htm : ((slots.map (fun sl => sl.time))).Nodup) :
    (Driver.driverRun true c 0 d slots).2.timeOnDuty.Nodup := by
  have h0 : (0 : ℤ) = ((0 : ℕ) : ℤ) := rfl
  rw [h0, driverRun_duty_fw c 0 d slots (by omega), hd, List.nil_append, List.drop_zero]
  exact List.Nodup.sublist (List.take_sublist _ _) htm

theorem driverRun_duty_nodup_bw (c : Nat) (d : Soldier) (slots : List StoveSlot)
    (hc : c ≤ slots.length) (hd : d.timeOnDuty = [])
    (htm : ((slots.map (fun sl => sl.time))).Nodup) :
    (Driver.driverRun false c (-1) d slots).2.timeOnDuty.Nodup := by
  have h1 : (-1 : ℤ) = -((1 : ℕ) : ℤ) := by norm_num
  rw [h1, driverRun_duty_bw c 1 d slots (le_refl 1) (by omega), hd, List.nil_append,
    List.nodup_reverse]
  exact List.Nodup.sublist ((List.take_sublist _ _).trans (List.drop_sublist _ _)) htm

theorem placeDrivers_cons_false (hpd : ℚ) (d : Soldier) (rest : List Soldier)
    (slots : List StoveSlot) :
    Driver.placeDrivers hpd (d :: rest) false slots =
      ((Driver.placeDrivers hpd rest true
          (Driver.driverRun true (⌈hpd⌉).toNat 0 d slots).1).1,
       (Driver.driverRun true (⌈hpd⌉).toNat 0 d slots).2 ::
       (Driver.placeDrivers hpd rest true
          (Driver.driverRun true (⌈hpd⌉).toNat 0 d slots).1).2) := rfl

theorem placeDrivers_cons_true (hpd : ℚ) (d : Soldier) (rest : List Soldier)
    (slots : List StoveSlot) :
    Driver.placeDrivers hpd (d :: rest) true slots =
      ((Driver.placeDrivers hpd rest false
          (Driver.driverRun false (⌊hpd⌋).toNat (-1) d slots).1).1,
       (Driver.driverRun false (⌊hpd⌋).toNat (-1) d slots).2 ::
       (Driver.placeDrivers hpd rest false
          (Driver.driverRun false (⌊hpd⌋).toNat (-1) d slots).1).2) := rfl

theorem placeDrivers_duty_nodup (hpd : ℚ) : ∀ (ds : List Soldier) (fw : Bool)
    (slots : List StoveSlot),
    (⌈hpd⌉).toNat ≤ slots.length →
    (∀ d ∈ ds, d.timeOnDuty = []) →
    ((slots.map (fun sl => sl.time))).Nodup →
    ∀ d' ∈ (Driver.placeDrivers hpd ds fw slots).2, d'.timeOnDuty.Nodup
  | [], _, _, _, _, _ => by
      intro d' hd'
      simp [Driver.placeDrivers] at hd'
  | d :: rest, fw, slots, hlen, hduty, htm => by
      intro d' hd'
      have hfl : (⌊hpd⌋).toNat ≤ (⌈hpd⌉).toNat := by
        have := Int.floor_le_ceil hpd
        omega
      cases fw with
      | false =>
          rw [placeDrivers_cons_false] at hd'
          rcases List.mem_cons.mp hd' with h1 | h2
          · rw [h1]
            exact driverRun_duty_nodup_fw _ _ _ hlen (hduty d (by simp)) htm
          · refine placeDrivers_duty_nodup hpd rest true _ ?_ ?_ ?_ d' h2
            · rw [driverRun_length]
              exact hlen
            · intro x hx
              exact hduty x (by simp [hx])
            · rw [driverRun_map_time]
              exact htm
      | true =>
          rw [placeDrivers_cons_true] at hd'
          rcases List.mem_cons.mp hd' with h1 | h2
          · rw [h1]
            exact driverRun_duty_nodup_bw _ _ _ (le_trans hfl hlen) (hduty d (by simp)) htm
          · refine placeDrivers_duty_nodup hpd rest false _ ?_ ?_ ?_ d' h2
            · rw [driverRun_length]
              exact hlen
            · intro x hx
              exact hduty x (by simp [hx])
            · rw [driverRun_map_time]
              exact htm

theorem driverStage_duty_nodup (H : Nat) (shuf : List Soldier → List Soldier)
    (members : List Soldier) (stove : List StoveSlot)
    (hshuf : ∀ l, (shuf l).Perm l)
    (hmem : ∀ m ∈ members, m.timeOnDuty = [])
    (htm : ((stove.map (fun sl => sl.time))).Nodup)
    (hlen : H ≤ stove.length) :
    ∀ d ∈ (Driver.driverStage H shuf members stove).2, d.timeOnDuty.Nodup := by
  intro d hd
  simp only [Driver.driverStage] at hd
  by_cases hc : Driver.driversInSquad members ≠ [] ∧ 6 < H
  · rw [if_pos hc] at hd
    have hds1 : 1 ≤ (Driver.driversInSquad members).length :=
      List.length_pos.mpr hc.1
    have hq1 : ((H : ℚ) - 6) / ((Driver.driversInSquad members).length : ℚ) ≤ (H : ℚ) - 6 := by
      apply div_le_self
      · have h6 : (6 : ℚ) ≤ (H : ℚ) := by exact_mod_cast le_of_lt hc.2
        linarith
      · exact_mod_cast hds1
    have hq2 : ⌈((H : ℚ) - 6) / ((Driver.driversInSquad members).length : ℚ)⌉ ≤ (H : ℤ) - 6 := by
      refine le_trans (Int.ceil_le_ceil hq1) ?_
      rw [show ((H : ℚ) - 6) = (((H : ℤ) - 6 : ℤ) : ℚ) by push_cast; ring, Int.ceil_intCast]
    have hce : (⌈((H : ℚ) - 6) /
        ((Driver.driversInSquad members).length : ℚ)⌉).toNat ≤ stove.length := by
      omega
    refine placeDrivers_duty_nodup _ (shuf (Driver.driversInSquad members)) false stove hce
      ?_ htm d hd
    intro x hx
    exact hmem x (List.mem_of_mem_filter ((hshuf _).mem_iff.mp hx))
  · rw [if_neg hc] at hd
    rw [hmem d (List.mem_of_mem_filter hd)]
    exact List.nodup_nil

end NR
namespace NR

theorem mem_drop_of_mem_drop_succ {α : Type} : ∀ (l : List α) (n : Nat) (x : α),
    x ∈ l.drop (n + 1) → x ∈ l.drop n
  | [], _, _, h => by simp at h
  | _ :: _, 0, _, h => List.mem_cons_of_mem _ h
  | _ :: l, n + 1, x, h => mem_drop_of_mem_drop_succ l n x h

theorem assignSlot_spec (sfc : List Soldier) (patrol : List PatrolSlot) (hi i1 i2 : Nat)
    (out : List Soldier × List PatrolSlot)
    (hne : i1 ≠ i2)
    (h : Pair.assignSlot sfc patrol hi i1 i2 = .ok out)
    (hptm : ((patrol.map (fun p => p.time))).Nodup)
    (hinv : ∀ x ∈ sfc, x.timeOnDuty.Nodup ∧
      ∀ t ∈ x.timeOnDuty, t ∉ (patrol.map (fun p => p.time)).drop hi) :
    out.2.map (fun p => p.time) = patrol.map (fun p => p.time) ∧
    ∀ x ∈ out.1, x.timeOnDuty.Nodup ∧
      ∀ t ∈ x.timeOnDuty, t ∉ (patrol.map (fun p => p.time)).drop (hi + 1) := by
  unfold Pair.assignSlot at h
  cases hp : patrol.get? hi with
  | none =>
      rw [hp] at h
      exact Except.noConfusion h
  | some ph =>
    cases h1 : sfc.get? i1 with
    | none =>
        rw [hp, h1] at h
        exact Except.noConfusion h
    | some s1 =>
      cases h2 : sfc.get? i2 with
      | none =>
          rw [hp, h1, h2] at h
          exact Except.noConfusion h
      | some s2 =>
        rw [hp, h1, h2] at h
        have hpair := Except.ok.inj h
        subst hpair
        obtain ⟨hhi, hph⟩ := List.get?_eq_some.mp hp
        have hhi' : hi < (patrol.map (fun p => p.time)).length := by
          rw [List.length_map]
          exact hhi
        have hpht : ph.time = (patrol.map (fun p => p.time))[hi] := by
          rw [List.getElem_map, ← hph]
          rfl
        have hdropNd : ((patrol.map (fun p => p.time)).drop hi).Nodup :=
          List.Nodup.sublist (List.drop_sublist _ _) hptm
        have hdropEq : (patrol.map (fun p => p.time)).drop hi =
            (patrol.map (fun p => p.time))[hi] ::
              (patrol.map (fun p => p.time)).drop (hi + 1) :=
          List.drop_eq_getElem_cons hhi'
        have hhead : (patrol.map (fun p => p.time))[hi] ∉
            (patrol.map (fun p => p.time)).drop (hi + 1) := by
          rw [hdropEq] at hdropNd
          exact (List.nodup_cons.mp hdropNd).1
        refine ⟨?_, ?_⟩
        · apply map_set_same
          intro hlt
          exact congrArg (fun z => z.time) hph.symm
        · have fresh : ∀ y ∈ sfc,
              (y.timeOnDuty ++ [ph.time]).Nodup ∧
              ∀ t ∈ y.timeOnDuty ++ [ph.time],
                t ∉ (patrol.map (fun p => p.time)).drop (hi + 1) := by
            intro y hy
            obtain ⟨hnd, hni⟩ := hinv y hy
            have hfr : ph.time ∉ y.timeOnDuty := by
              intro hmem
              exact hni _ hmem (by rw [hdropEq, ← hpht]; exact List.mem_cons_self _ _)
            constructor
            · rw [List.nodup_append]
              exact ⟨hnd, List.nodup_singleton _,
                fun a ha hb => hfr ((List.mem_singleton.mp hb) ▸ ha)⟩
            · intro t ht
              rcases List.mem_append.mp ht with h' | h'
              · exact fun hmem => hni t h' (mem_drop_of_mem_drop_succ _ _ _ hmem)
              · rw [List.mem_singleton.mp h', hpht]
                exact hhead
          intro x hx
          rcases mem_modifyIdx _ _ _ _ hx with hx1 | ⟨hlt2, hx2⟩
          · rcases mem_modifyIdx _ _ _ _ hx1 with hx0 | ⟨hlt1, hx1'⟩
            · obtain ⟨hnd, hni⟩ := hinv x hx0
              exact ⟨hnd, fun t ht hmem => hni t ht (mem_drop_of_mem_drop_succ _ _ _ hmem)⟩
            · rw [hx1']
              exact fresh _ (List.get_mem sfc i1 hlt1)
          · have hlen : (modifyIdx sfc i1
                (fun s => { s with timeOnDuty := s.timeOnDuty ++ [ph.time] })).length =
                sfc.length := modifyIdx_length _ _ _
            have hI2' : i2 < sfc.length := by
              rw [← hlen]
              exact hlt2
            have hgeq : (modifyIdx sfc i1
                (fun s => { s with timeOnDuty := s.timeOnDuty ++ [ph.time] })).get ⟨i2, hlt2⟩ =
                sfc.get ⟨i2, hI2'⟩ := by
              have e1 : some ((modifyIdx sfc i1
                  (fun s => { s with timeOnDuty := s.timeOnDuty ++ [ph.time] })).get
                    ⟨i2, hlt2⟩) = some (sfc.get ⟨i2, hI2'⟩) :=
                calc some ((modifyIdx sfc i1
                      (fun s => { s with timeOnDuty := s.timeOnDuty ++ [ph.time] })).get
                        ⟨i2, hlt2⟩) =
                    (modifyIdx sfc i1
                      (fun s => { s with timeOnDuty := s.timeOnDuty ++ [ph.time] }))[i2]? :=
                      (List.getElem?_eq_getElem hlt2).symm
                  _ = sfc[i2]? := modifyIdx_getElem_ne sfc i1 _ i2 hne
                  _ = some (sfc.get ⟨i2, hI2'⟩) := List.getElem?_eq_getElem hI2'
              exact Option.some.inj e1
            rw [hx2, hgeq]
            exact fresh _ (List.get_mem sfc i2 hI2')

theorem pairRun_spec (i1 i2 : Nat) (hne : i1 ≠ i2) :
    ∀ (hours : Nat) (sfc : List Soldier) (patrol : List PatrolSlot) (hi : Nat)
      (out : List Soldier × List PatrolSlot × Nat),
    Pair.pairRun i1 i2 hours sfc patrol hi = .ok out →
    ((patrol.map (fun p => p.time))).Nodup →
    (∀ x ∈ sfc, x.timeOnDuty.Nodup ∧
      ∀ t ∈ x.timeOnDuty, t ∉ (patrol.map (fun p => p.time)).drop hi) →
    out.2.1.map (fun p => p.time) = patrol.map (fun p => p.time) ∧
    ∀ x ∈ out.1, x.timeOnDuty.Nodup ∧
      ∀ t ∈ x.timeOnDuty, t ∉ (patrol.map (fun p => p.time)).drop out.2.2
  | 0, sfc, patrol, hi, out, h, hptm, hinv => by
      have hpair := Except.ok.inj h
      subst hpair
      exact ⟨rfl, hinv⟩
  | hours + 1, sfc, patrol, hi, out, h, hptm, hinv => by
      cases ha : Pair.assignSlot sfc patrol hi i1 i2 with
      | error err =>
          rw [show Pair.pairRun i1 i2 (hours + 1) sfc patrol hi =
              Pair.assignSlot sfc patrol hi i1 i2 >>= (fun sp =>
                Pair.pairRun i1 i2 hours sp.1 sp.2 (hi + 1)) from rfl, ha] at h
          exact Except.noConfusion h
      | ok sp =>
          obtain ⟨sfc1, patrol1⟩ := sp
          rw [show Pair.pairRun i1 i2 (hours + 1) sfc patrol hi =
              Pair.assignSlot sfc patrol hi i1 i2 >>= (fun sp =>
                Pair.pairRun i1 i2 hours sp.1 sp.2 (hi + 1)) from rfl, ha, exbind_ok] at h
          obtain ⟨hmap, hinv'⟩ :=
            assignSlot_spec sfc patrol hi i1 i2 (sfc1, patrol1) hne ha hptm hinv
          have hmap1 : patrol1.map (fun p => p.time) = patrol.map (fun p => p.time) := hmap
          have hptm1 : ((patrol1.map (fun p => p.time))).Nodup := by
            rw [hmap1]
            exact hptm
          have hinv1 : ∀ x ∈ sfc1, x.timeOnDuty.Nodup ∧
              ∀ t ∈ x.timeOnDuty, t ∉ (patrol1.map (fun p => p.time)).drop (hi + 1) := by
            intro x hx
            refine ⟨(hinv' x hx).1, ?_⟩
            rw [hmap1]
            exact (hinv' x hx).2
          have hrec := pairRun_spec i1 i2 hne hours sfc1 patrol1 (hi + 1) out h hptm1 hinv1
          refine ⟨hrec.1.trans hmap1, ?_⟩
          intro x hx
          obtain ⟨hnd, hni⟩ := hrec.2 x hx
          refine ⟨hnd, ?_⟩
          rw [← hmap1]
          exact hni

theorem pairLoop_spec : ∀ (sel ph : List Nat) (sfc : List Soldier)
      (patrol : List PatrolSlot) (hi : Nat) (out : List Soldier × List PatrolSlot),
    Pair.pairLoop sel ph sfc patrol hi = .ok out →
    sel.Nodup →
    ((patrol.map (fun p => p.time))).Nodup →
    (∀ x ∈ sfc, x.timeOnDuty.Nodup ∧
      ∀ t ∈ x.timeOnDuty, t ∉ (patrol.map (fun p => p.time)).drop hi) →
    ∀ x ∈ out.1, x.timeOnDuty.Nodup
  | [], ph, sfc, patrol, hi, out, h, _, _, hinv => by
      have hpair := Except.ok.inj h
      subst hpair
      exact fun x hx => (hinv x hx).1
  | [i], ph, sfc, patrol, hi, out, h, _, _, _ => Except.noConfusion h
  | i1 :: i2 :: rest, [], sfc, patrol, hi, out, h, _, _, _ => Except.noConfusion h
  | i1 :: i2 :: rest, hcount :: hrest, sfc, patrol, hi, out, h, hsel, hptm, hinv => by
      cases hr : Pair.pairRun i1 i2 hcount sfc patrol hi with
      | error err =>
          rw [show Pair.pairLoop (i1 :: i2 :: rest) (hcount :: hrest) sfc patrol hi =
              Pair.pairRun i1 i2 hcount sfc patrol hi >>= (fun spi =>
                Pair.pairLoop rest hrest spi.1 spi.2.1 spi.2.2) from rfl, hr] at h
          exact Except.noConfusion h
      | ok spi =>
          obtain ⟨sfc1, patrol1, hi1⟩ := spi
          rw [show Pair.pairLoop (i1 :: i2 :: rest) (hcount :: hrest) sfc patrol hi =
              Pair.pairRun i1 i2 hcount sfc patrol hi >>= (fun spi =>
                Pair.pairLoop rest hrest spi.1 spi.2.1 spi.2.2) from rfl, hr, exbind_ok] at h
          have hne : i1 ≠ i2 := by
            intro he
            exact (List.nodup_cons.mp hsel).1 (he ▸ List.mem_cons_self i2 rest)
          obtain ⟨hmap, hinv'⟩ :=
            pairRun_spec i1 i2 hne hcount sfc patrol hi (sfc1, patrol1, hi1) hr hptm hinv
          have hmap1 : patrol1.map (fun p => p.time) = patrol.map (fun p => p.time) := hmap
          have hinv1 : ∀ x ∈ sfc1, x.timeOnDuty.Nodup ∧
              ∀ t ∈ x.timeOnDuty, t ∉ (patrol1.map (fun p => p.time)).drop hi1 := by
            intro x hx
            refine ⟨(hinv' x hx).1, ?_⟩
            rw [hmap1]
            exact (hinv' x hx).2
          refine pairLoop_spec rest hrest sfc1 patrol1 hi1 out h
            (List.nodup_cons.mp (List.nodup_cons.mp hsel).2).2 ?_ hinv1
          rw [hmap1]
          exact hptm

end NR
namespace NR

theorem zeroFillStep_eq_none (sfc : List Soldier) (stove : List StoveSlot) (p : Nat)
    (hs : sfc.get? p = none) : Fill.zeroFillStep sfc stove p = (sfc, stove) := by
  unfold Fill.zeroFillStep
  rw [hs]

theorem zeroFillStep_eq_some (sfc : List Soldier) (stove : List StoveSlot) (p : Nat)
    (soldier : Soldier) (hs : sfc.get? p = some soldier) :
    Fill.zeroFillStep sfc stove p =
      (if soldier.timeOnDuty = [] then
        match stove.findIdx? (fun sl => sl.sid = none) with
        | some j =>
            ( modifyIdx sfc p (fun s => { s with timeOnDuty := s.timeOnDuty ++
                [(stove.getD j { time := 0, sname := none, sid := none }).time] }),
              modifyIdx stove j (fun sl =>
                { sl with sid := some soldier.id, sname := some soldier.name }) )
        | none => (sfc, stove)
      else (sfc, stove)) := by
  unfold Fill.zeroFillStep
  rw [hs]

theorem zeroFillStep_nodup (sfc : List Soldier) (stove : List StoveSlot) (p : Nat)
    (hinv : ∀ x ∈ sfc, x.timeOnDuty.Nodup) :
    ∀ x ∈ (Fill.zeroFillStep sfc stove p).1, x.timeOnDuty.Nodup := by
  intro x hx
  cases hs : sfc.get? p with
  | none =>
      rw [zeroFillStep_eq_none sfc stove p hs] at hx
      exact hinv x hx
  | some soldier =>
      rw [zeroFillStep_eq_some sfc stove p soldier hs] at hx
      by_cases hd : soldier.timeOnDuty = []
      · rw [if_pos hd] at hx
        cases hf : stove.findIdx? (fun sl => sl.sid = none) with
        | none =>
            rw [hf] at hx
            exact hinv x hx
        | some j =>
            rw [hf] at hx
            rcases mem_modifyIdx _ _ _ _ hx with hx0 | ⟨hlt, hx1⟩
            · exact hinv x hx0
            · have hps : sfc.get ⟨p, hlt⟩ = soldier := (List.get?_eq_some.mp hs).2
              rw [hx1]
              show ((sfc.get ⟨p, hlt⟩).timeOnDuty ++
                [(stove.getD j { time := 0, sname := none, sid := none }).time]).Nodup
              rw [hps, hd]
              simp
      · rw [if_neg hd] at hx
        exact hinv x hx

theorem zeroFill_fold_nodup : ∀ (l : List Nat) (st : List Soldier × List StoveSlot),
    (∀ x ∈ st.1, x.timeOnDuty.Nodup) →
    ∀ x ∈ (l.foldl (fun st p => Fill.zeroFillStep st.1 st.2 p) st).1, x.timeOnDuty.Nodup
  | [], _, hinv => hinv
  | p :: l, st, hinv =>
      zeroFill_fold_nodup l (Fill.zeroFillStep st.1 st.2 p)
        (zeroFillStep_nodup st.1 st.2 p hinv)

theorem zeroFill_nodup (sfc : List Soldier) (stove : List StoveSlot)
    (hinv : ∀ x ∈ sfc, x.timeOnDuty.Nodup) :
    ∀ x ∈ (Fill.zeroFill sfc stove).1, x.timeOnDuty.Nodup :=
  zeroFill_fold_nodup _ (sfc, stove) hinv

theorem assignFill_eq_none (sfc : List Soldier) (stove : List StoveSlot) (p : Nat)
    (hs : sfc.get? p = none) : Fill.assignFill sfc stove p = (sfc, stove) := by
  unfold Fill.assignFill
  rw [hs]

theorem assignFill_eq_some (sfc : List Soldier) (stove : List StoveSlot) (p : Nat)
    (soldier : Soldier) (hs : sfc.get? p = some soldier) :
    Fill.assignFill sfc stove p =
      (match stove.findIdx? (fun sl =>
          decide (sl.time ∉ soldier.timeOnDuty) && decide (sl.sid = none)) with
       | some j =>
          ( modifyIdx sfc p (fun s => { s with timeOnDuty := s.timeOnDuty ++
              [(stove.getD j { time := 0, sname := none, sid := none }).time] }),
            modifyIdx stove j (fun sl =>
              { sl with sid := some soldier.id, sname := some soldier.name }) )
       | none => (sfc, stove)) := by
  unfold Fill.assignFill
  rw [hs]

theorem assignFill_nodup (sfc : List Soldier) (stove : List StoveSlot) (p : Nat)
    (hinv : ∀ x ∈ sfc, x.timeOnDuty.Nodup) :
    ∀ x ∈ (Fill.assignFill sfc stove p).1, x.timeOnDuty.Nodup := by
  intro x hx
  cases hs : sfc.get? p with
  | none =>
      rw [assignFill_eq_none sfc stove p hs] at hx
      exact hinv x hx
  | some soldier =>
      rw [assignFill_eq_some sfc stove p soldier hs] at hx
      cases hf : stove.findIdx? (fun sl =>
          decide (sl.time ∉ soldier.timeOnDuty) && decide (sl.sid = none)) with
      | none =>
          rw [hf] at hx
          exact hinv x hx
      | some j =>
          rw [hf] at hx
          rcases mem_modifyIdx _ _ _ _ hx with hx0 | ⟨hlt, hx1⟩
          · exact hinv x hx0
          · obtain ⟨hjlt, hpj, _⟩ := List.findIdx?_eq_some_iff_getElem.mp hf
            simp only [Bool.and_eq_true, decide_eq_true_eq] at hpj
            have hfr : stove[j].time ∉ soldier.timeOnDuty := hpj.1
            have hps : sfc.get ⟨p, hlt⟩ = soldier := (List.get?_eq_some.mp hs).2
            have hsold : soldier ∈ sfc := by
              rw [← hps]
              exact List.get_mem sfc p hlt
            have ht : (stove.getD j { time := 0, sname := none, sid := none }).time =
                stove[j].time := by
              rw [List.getD_eq_getElem _ _ hjlt]
            rw [hx1]
            show ((sfc.get ⟨p, hlt⟩).timeOnDuty ++
              [(stove.getD j { time := 0, sname := none, sid := none }).time]).Nodup
            rw [hps, ht, List.nodup_append]
            exact ⟨hinv soldier hsold, List.nodup_singleton _,
              fun a ha hb => hfr ((List.mem_singleton.mp hb) ▸ ha)⟩

theorem fillIter_eq (H s e : Nat) (sfc : List Soldier) (stove : List StoveSlot)
    (ps : Option Nat) (k : Nat) :
    Fill.fillIter H s e sfc stove ps k =
      (Fill.consHoursFold H s e sfc ps) >>= (fun cp =>
        if stove.all (fun sl => sl.sid ≠ none) then .ok ((sfc, stove, cp.2), true)
        else (Fill.selectIdx cp.1 k) >>= (fun p =>
          .ok (((Fill.assignFill sfc stove p).1, (Fill.assignFill sfc stove p).2, cp.2),
            false))) := rfl

theorem fillIter_spec (H s e : Nat) (sfc : List Soldier) (stove : List StoveSlot)
    (ps : Option Nat) (k : Nat) (st : List Soldier × List StoveSlot × Option Nat)
    (done : Bool)
    (h : Fill.fillIter H s e sfc stove ps k = .ok (st, done))
    (hinv : ∀ x ∈ sfc, x.timeOnDuty.Nodup) :
    (∀ x ∈ st.1, x.timeOnDuty.Nodup) ∧
      (done = true → st.2.1 = stove ∧ stove.all (fun sl => sl.sid ≠ none) = true) := by
  rw [fillIter_eq] at h
  cases hc : Fill.consHoursFold H s e sfc ps with
  | error err =>
      rw [hc] at h
      exact Except.noConfusion h
  | ok cp =>
      rw [hc, exbind_ok] at h
      by_cases hall : stove.all (fun sl => sl.sid ≠ none) = true
      · rw [if_pos hall] at h
        have hpair := Except.ok.inj h
        have hst : st = (sfc, stove, cp.2) := (congrArg Prod.fst hpair).symm
        refine ⟨?_, fun _ => ?_⟩
        · rw [hst]
          exact hinv
        · rw [hst]
          exact ⟨rfl, hall⟩
      · rw [if_neg hall] at h
        cases hsel : Fill.selectIdx cp.1 k with
        | error err =>
            rw [hsel] at h
            exact Except.noConfusion h
        | ok p =>
            rw [hsel, exbind_ok] at h
            have hpair := Except.ok.inj h
            have hst : st = ((Fill.assignFill sfc stove p).1,
                (Fill.assignFill sfc stove p).2, cp.2) := (congrArg Prod.fst hpair).symm
            have hdone : done = false := (congrArg Prod.snd hpair).symm
            refine ⟨?_, fun hdt => by rw [hdone] at hdt; exact Bool.noConfusion hdt⟩
            rw [hst]
            exact assignFill_nodup sfc stove p hinv

theorem fillLoop_spec (H s e : Nat) (rint : Nat → Nat) :
    ∀ (fuel : Nat) (sfc : List Soldier) (stove : List StoveSlot) (ps : Option Nat)
      (out : List Soldier × List StoveSlot),
    Fill.fillLoop H s e rint fuel sfc stove ps = .ok out →
    (∀ x ∈ sfc, x.timeOnDuty.Nodup) →
    (∀ x ∈ out.1, x.timeOnDuty.Nodup) ∧ out.2.all (fun sl => sl.sid ≠ none) = true
  | 0, _, _, _, _, h, _ => Except.noConfusion h
  | fuel + 1, sfc, stove, ps, out, h, hinv => by
      have hstep : Fill.fillLoop H s e rint (fuel + 1) sfc stove ps =
          (Fill.fillIter H s e sfc stove ps (rint fuel)) >>= (fun sd =>
            if sd.2 then .ok (sd.1.1, sd.1.2.1)
            else Fill.fillLoop H s e rint fuel sd.1.1 sd.1.2.1 sd.1.2.2) := rfl
      rw [hstep] at h
      cases hi : Fill.fillIter H s e sfc stove ps (rint fuel) with
      | error err =>
          rw [hi] at h
          exact Except.noConfusion h
      | ok sd =>
          obtain ⟨st, done⟩ := sd
          rw [hi, exbind_ok] at h
          obtain ⟨hnd, hdone⟩ := fillIter_spec H s e sfc stove ps (rint fuel) st done hi hinv
          cases done with
          | true =>
              obtain ⟨hsteq, hall⟩ := hdone rfl
              have h' : (Except.ok (st.1, st.2.1) :
                  Except PyErr (List Soldier × List StoveSlot)) = .ok out := h
              have hpair := Except.ok.inj h'
              subst hpair
              constructor
              · exact hnd
              · show st.2.1.all (fun sl => sl.sid ≠ none) = true
                rw [hsteq]
                exact hall
          | false =>
              have h' : Fill.fillLoop H s e rint fuel st.1 st.2.1 st.2.2 = .ok out := h
              exact fillLoop_spec H s e rint fuel st.1 st.2.1 st.2.2 out h' hnd

end NR
namespace NR

theorem divideSquad_eq (s e : Nat) (orc : Oracles) (members : List Soldier)
    (sched : SquadSchedule) :
    divideSquad s e orc members sched =
      (if (Pair.squadForCalculating members).length / 2 = 0 then
        Except.error PyErr.zeroDivision
      else
        (Pair.pairLoop orc.sel
            (Pair.pairHours ((Pair.squadForCalculating members).length / 2)
              sched.patrol.length
              ((sched.patrol.length : ℚ) /
                ((((Pair.squadForCalculating members).length / 2 : ℕ)) : ℚ)))
            (Pair.squadForCalculating members) sched.patrol 0) >>= (fun sp =>
          (Fill.fillLoop (nightRoutineTime s e) s e orc.rint orc.fuel
              (Fill.zeroFill sp.1
                (Driver.driverStage (nightRoutineTime s e) orc.shuf members
                  sched.stove).1).1
              (Fill.zeroFill sp.1
                (Driver.driverStage (nightRoutineTime s e) orc.shuf members
                  sched.stove).1).2
              none) >>= (fun fs =>
            Except.ok ((Driver.driverStage (nightRoutineTime s e) orc.shuf members
                sched.stove).2,
              fs.1, { stove := fs.2, patrol := sp.2 })))) := rfl

theorem divideSquad_spec (s e : Nat) (orc : Oracles) (members : List Soldier)
    (sched : SquadSchedule)
    (out : List Soldier × List Soldier × SquadSchedule)
    (hok : divideSquad s e orc members sched = .ok out)
    (hduty : ∀ m ∈ members, m.timeOnDuty = [])
    (hstm : ((sched.stove.map (fun sl => sl.time))).Nodup)
    (hptm : ((sched.patrol.map (fun p => p.time))).Nodup)
    (hlen : nightRoutineTime s e ≤ sched.stove.length)
    (hshuf : ∀ l, (orc.shuf l).Perm l)
    (hsel : orc.sel.Nodup) :
    (∀ sl ∈ out.2.2.stove, sl.sid ≠ none) ∧
    (∀ d ∈ out.1, d.timeOnDuty.Nodup) ∧
    (∀ x ∈ out.2.1, x.timeOnDuty.Nodup) := by
  rw [divideSquad_eq] at hok
  by_cases hpc : (Pair.squadForCalculating members).length / 2 = 0
  · rw [if_pos hpc] at hok
    exact Except.noConfusion hok
  · rw [if_neg hpc] at hok
    generalize hPH : Pair.pairHours ((Pair.squadForCalculating members).length / 2)
      sched.patrol.length
      ((sched.patrol.length : ℚ) /
        ((((Pair.squadForCalculating members).length / 2 : ℕ)) : ℚ)) = phl at hok
    cases hpl : Pair.pairLoop orc.sel phl (Pair.squadForCalculating members)
        sched.patrol 0 with
    | error err =>
        rw [hpl] at hok
        exact Except.noConfusion hok
    | ok sp =>
        obtain ⟨sfc1, patrol1⟩ := sp
        rw [hpl, exbind_ok] at hok
        cases hfl : Fill.fillLoop (nightRoutineTime s e) s e orc.rint orc.fuel
            (Fill.zeroFill sfc1
              (Driver.driverStage (nightRoutineTime s e) orc.shuf members
                sched.stove).1).1
            (Fill.zeroFill sfc1
              (Driver.driverStage (nightRoutineTime s e) orc.shuf members
                sched.stove).1).2
            none with
        | error err =>
            rw [hfl] at hok
            exact Except.noConfusion hok
        | ok fs =>
            obtain ⟨sfc3, stove3⟩ := fs
            rw [hfl, exbind_ok] at hok
            have hpair := Except.ok.inj hok
            subst hpair
            have hsfc0 : ∀ x ∈ Pair.squadForCalculating members, x.timeOnDuty.Nodup ∧
                ∀ t ∈ x.timeOnDuty, t ∉ (sched.patrol.map (fun p => p.time)).drop 0 := by
              intro x hx
              have hxm : x ∈ members := mem_of_mem_foldl_erase _ _ _ hx
              rw [hduty x hxm]
              exact ⟨List.nodup_nil, by simp⟩
            have hsfc1 : ∀ x ∈ sfc1, x.timeOnDuty.Nodup :=
              pairLoop_spec orc.sel phl (Pair.squadForCalculating members) sched.patrol 0
                (sfc1, patrol1) hpl hsel hptm hsfc0
            have hsfc2 : ∀ x ∈ (Fill.zeroFill sfc1
                (Driver.driverStage (nightRoutineTime s e) orc.shuf members
                  sched.stove).1).1, x.timeOnDuty.Nodup :=
              zeroFill_nodup _ _ hsfc1
            obtain ⟨hsfc3, hall⟩ := fillLoop_spec (nightRoutineTime s e) s e orc.rint
              orc.fuel _ _ none (sfc3, stove3) hfl hsfc2
            refine ⟨?_, ?_, ?_⟩
            · intro sl hsl
              have hall' : stove3.all (fun sl => sl.sid ≠ none) = true := hall
              have := List.all_eq_true.mp hall' sl hsl
              simpa using this
            · exact driverStage_duty_nodup (nightRoutineTime s e) orc.shuf members
                sched.stove hshuf hduty hstm hlen
            · exact hsfc3

theorem dividePlatoonFrom_spec : ∀ (s e : Nat) (orc : Nat → Oracles) (i : Nat)
      (platoon : List Squad) (scheds : List SquadSchedule)
      (out : List (List Soldier × List Soldier × SquadSchedule)),
    dividePlatoonFrom s e orc i platoon scheds = .ok out →
    (∀ sq ∈ platoon, ∀ m ∈ sq.squadMembers, m.timeOnDuty = []) →
    (∀ sch ∈ scheds, ((sch.stove.map (fun sl => sl.time))).Nodup ∧
      ((sch.patrol.map (fun p => p.time))).Nodup ∧
      nightRoutineTime s e ≤ sch.stove.length) →
    (∀ j l, ((orc j).shuf l).Perm l) →
    (∀ j, (orc j).sel.Nodup) →
    ∀ r ∈ out, (∀ sl ∈ r.2.2.stove, sl.sid ≠ none) ∧
      (∀ d ∈ r.1, d.timeOnDuty.Nodup) ∧
      (∀ x ∈ r.2.1, x.timeOnDuty.Nodup)
  | s, e, orc, i, [], scheds, out, h, _, _, _, _ => by
      have hpair := Except.ok.inj h
      subst hpair
      intro r hr
      simp at hr
  | s, e, orc, i, sq :: rest, [], out, h, _, _, _, _ => Except.noConfusion h
  | s, e, orc, i, sq :: rest, sched :: srest, out, h, hduty, hsched, hshuf, hsel => by
      have hstep : dividePlatoonFrom s e orc i (sq :: rest) (sched :: srest) =
          (divideSquad s e (orc i) sq.squadMembers sched) >>= (fun r =>
            (dividePlatoonFrom s e orc (i + 1) rest srest) >>= (fun rs =>
              Except.ok (r :: rs))) := rfl
      rw [hstep] at h
      cases hd : divideSquad s e (orc i) sq.squadMembers sched with
      | error err =>
          rw [hd] at h
          exact Except.noConfusion h
      | ok r0 =>
          rw [hd, exbind_ok] at h
          cases hrest : dividePlatoonFrom s e orc (i + 1) rest srest with
          | error err =>
              rw [hrest] at h
              exact Except.noConfusion h
          | ok rs =>
              rw [hrest, exbind_ok] at h
              have hpair := Except.ok.inj h
              subst hpair
              intro r hr
              rcases List.mem_cons.mp hr with hr0 | hr1
              · rw [hr0]
                exact divideSquad_spec s e (orc i) sq.squadMembers sched r0 hd
                  (hduty sq (by simp)) (hsched sched (by simp)).1
                  (hsched sched (by simp)).2.1 (hsched sched (by simp)).2.2
                  (hshuf i) (hsel i)
              · exact dividePlatoonFrom_spec s e orc (i + 1) rest srest rs hrest
                  (fun q hq => hduty q (List.mem_cons_of_mem _ hq))
                  (fun sch hs => hsched sch (List.mem_cons_of_mem _ hs)) hshuf hsel r hr1

/-- C9: whenever `divide_night_routine_hours` completes without error — under
the program's own input contract (fresh duty lists, schedule templates with
distinct slot times and at least `H` stove-watch slots, a permutation
`shuffle` and a duplicate-free `sample`) — every squad's stove-watch slots
all carry an assigned soldier (no `"empty"` id remains) and every returned
soldier's duty-time list is duplicate-free, drivers included. -/
theorem c9_success_no_empty_and_nodup (s e : Nat) (orc : Nat → Oracles)
    (platoon : List Squad) (scheds : List SquadSchedule)
    (out : List (List Soldier × List Soldier × SquadSchedule))
    (hok : dividePlatoon s e orc platoon scheds = .ok out)
    (hduty : ∀ sq ∈ platoon, ∀ m ∈ sq.squadMembers, m.timeOnDuty = [])
    (hsched : ∀ sch ∈ scheds, ((sch.stove.map (fun sl => sl.time))).Nodup ∧
      ((sch.patrol.map (fun p => p.time))).Nodup ∧
      nightRoutineTime s e ≤ sch.stove.length)
    (hshuf : ∀ j l, ((orc j).shuf l).Perm l)
    (hsel : ∀ j, (orc j).sel.Nodup) :
    ∀ r ∈ out, (∀ sl ∈ r.2.2.stove, sl.sid ≠ none) ∧
      (∀ d ∈ r.1, d.timeOnDuty.Nodup) ∧
      (∀ x ∈ r.2.1, x.timeOnDuty.Nodup) :=
  dividePlatoonFrom_spec s e orc 0 platoon scheds out hok hduty hsched hshuf hsel

unseal Rat.mul Rat.add Rat.sub Rat.inv in
/-- Witness for C9: a five-soldier squad in the window `23:00`–`06:00`
completes the whole pipeline, and the conclusion holds for its output. -/
theorem c9_witness :
    (dividePlatoon 23 6 fillableOrcs
        [{ squadNumber := 1, squadMembers := fillableSquad }] [fillableSched] =
          .ok fillableOut ∧
      (∀ sq ∈ [({ squadNumber := 1, squadMembers := fillableSquad } : Squad)],
        ∀ m ∈ sq.squadMembers, m.timeOnDuty = []) ∧
      (∀ sch ∈ [fillableSched], ((sch.stove.map (fun sl => sl.time))).Nodup ∧
        ((sch.patrol.map (fun p => p.time))).Nodup ∧
        nightRoutineTime 23 6 ≤ sch.stove.length) ∧
      (∀ j, (fillableOrcs j).sel.Nodup)) ∧
    ∀ r ∈ fillableOut, (∀ sl ∈ r.2.2.stove, sl.sid ≠ none) ∧
      (∀ d ∈ r.1, d.timeOnDuty.Nodup) ∧
      (∀ x ∈ r.2.1, x.timeOnDuty.Nodup) :=
  ⟨⟨by decide, by decide, by decide, fun j => (by decide : ([0, 1, 2, 3] : List Nat).Nodup)⟩,
    c9_success_no_empty_and_nodup 23 6 fillableOrcs
      [{ squadNumber := 1, squadMembers := fillableSquad }] [fillableSched] fillableOut
      (by decide) (by decide) (by decide) (fun j l => List.Perm.refl l)
      (fun j => (by decide : ([0, 1, 2, 3] : List Nat).Nodup))⟩

end NR
